import Mathlib

/-!
A verification development for the GGUF-to-llama checkpoint converter
(`gguf_util/convert_from_gguf.py`).

The Python source is shallowly embedded: pure functions become Lean
functions, fallible operations return `Except Err`, and the mutable
PyTorch module tree is modelled as an explicit tree of named nodes that
the two weight-loading passes transform functionally.

Python failure kinds are kept distinct, mirroring the distinct exception
classes of the source:
 * `ValueError` raised by `load_gguf_file` for a missing path → `Err.notFound`,
 * `AssertionError` from the architecture / file-type asserts → `Err.invalidInput`,
 * `KeyError` on a missing metadata key → `Err.missingData`,
 * `TypeError` from handing a non-integer size to the host library → `Err.typeError`,
 * `RuntimeError` from a numpy/torch reshape or a size-mismatched
   `load_state_dict` copy → `Err.shapeError`,
 * `AttributeError` from a failed dynamic attribute walk → `Err.attributeError`.

Tensor elements are carried symbolically (`Elem`): the claims under
verification are about shapes, element counts and data movement, never
about floating-point arithmetic, so an element is its provenance
(raw float bits, a raw byte, a dequantized block element, or the
uninitialized value a parameter holds at instantiation time).
-/

set_option autoImplicit false

namespace GGUFConvert

/-- Failure kinds of the converter, one per Python exception class that
the source can raise (see the module comment). -/
inductive Err where
  | notFound
  | invalidInput
  | missingData
  | typeError
  | shapeError
  | attributeError
  deriving DecidableEq, Repr

/-- A normalized GGUF metadata value as produced by the metadata
extractor (`_get_metadata`): a numeric scalar, a string, an array of
strings, or a flattened numeric array.  Numeric scalars are split into
integer and non-integer cases; non-integral floats are carried as exact
rationals since the converter only stores and compares them. -/
inductive GGUFValue where
  | int (n : Int)
  | float (q : Rat)
  | str (s : String)
  | strList (l : List String)
  | numList (l : List Rat)
  deriving DecidableEq, Repr

/-- First-match association-list lookup, the embedding of Python `dict`
indexing (keys inserted by `fset` below are unique, so first match is
the dict entry). -/
def flookup {α β : Type} [DecidableEq α] : List (α × β) → α → Option β
  | [], _ => none
  | (k, v) :: rest, a => if k = a then some v else flookup rest a

/-- Overwriting insert: the embedding of Python `dict` assignment
(`d[k] = v`), used to build the weight map by comprehension where a
later duplicate key overwrites an earlier one. -/
def fset {α β : Type} [DecidableEq α] : List (α × β) → α → β → List (α × β)
  | [], a, v => [(a, v)]
  | (k, w) :: rest, a, v => if k = a then (k, v) :: rest else (k, w) :: fset rest a v

/-- The flat metadata mapping produced by the metadata extractor. -/
abbrev Metadata := List (String × GGUFValue)

/-- Required metadata lookup: `metadata[key]` in Python, whose failure is
an uncaught `KeyError`. -/
def getReq (md : Metadata) (k : String) : Except Err GGUFValue :=
  match flookup md k with
  | some v => Except.ok v
  | none => Except.error Err.missingData

/-- Python `len` applied to a metadata value: defined on arrays and
strings, a `TypeError` otherwise. -/
def ggufLen : GGUFValue → Except Err Nat
  | GGUFValue.strList l => Except.ok l.length
  | GGUFValue.numList l => Except.ok l.length
  | GGUFValue.str s => Except.ok s.length
  | _ => Except.error Err.typeError

/-- Python `==` between a metadata value and an integer literal
(`gguf_ft == 0`): numeric values compare by value, everything else is
unequal. -/
def ggufEqInt : GGUFValue → Int → Bool
  | GGUFValue.int n, m => n == m
  | GGUFValue.float q, m => q == (m : Rat)
  | _, _ => false

/-- Attention sub-record of the architecture description
(`AttentionArgs` dataclass).  Field values are carried exactly as read
from the metadata mapping, as the Python dataclass does. -/
structure AttentionArgs where
  head_count : GGUFValue
  head_count_kv : GGUFValue
  layer_norm_rms_epsilon : GGUFValue
  deriving DecidableEq, Repr

/-- Rotary-embedding sub-record (`RopeArgs` dataclass); both fields are
optional, populated with `dict.get`'s `None` default when absent. -/
structure RopeArgs where
  dimension_count : Option GGUFValue := none
  freq_base : Option GGUFValue := none
  deriving DecidableEq, Repr

/-- The architecture-description record (`GGUFModelArgs` dataclass).
`vocab_size` is an integer because it is computed by `len`, every other
field is stored exactly as read. -/
structure GGUFModelArgs where
  arch : GGUFValue
  embedding_length : GGUFValue
  block_count : GGUFValue
  feed_forward_length : GGUFValue
  vocab_size : Nat
  attention : AttentionArgs
  rope : RopeArgs
  deriving DecidableEq, Repr

/-- The architecture mapper `_build_model_args`: asserts the declared
architecture is `"llama"` and the declared file type is `0` or `1`
(both `AssertionError` → `Err.invalidInput`), then projects the
metadata into `GGUFModelArgs`, deriving `vocab_size` as the length of
`tokenizer.ggml.tokens`.  Lookups follow the Python evaluation order of
the dataclass constructor call. -/
def build_model_args (md : Metadata) : Except Err GGUFModelArgs := do
  let arch ← getReq md "general.architecture"
  if arch ≠ GGUFValue.str "llama" then
    throw Err.invalidInput
  let gguf_ft ← getReq md "general.file_type"
  -- ALL_F32 or MOSTLY_F16
  if ¬ (ggufEqInt gguf_ft 0 = true ∨ ggufEqInt gguf_ft 1 = true) then
    throw Err.invalidInput
  let embedding_length ← getReq md "llama.embedding_length"
  let block_count ← getReq md "llama.block_count"
  let feed_forward_length ← getReq md "llama.feed_forward_length"
  let tokens ← getReq md "tokenizer.ggml.tokens"
  let vocab_size ← ggufLen tokens
  let head_count ← getReq md "llama.attention.head_count"
  let head_count_kv ← getReq md "llama.attention.head_count_kv"
  let layer_norm_rms_epsilon ← getReq md "llama.attention.layer_norm_rms_epsilon"
  Except.ok
    { arch := arch
      embedding_length := embedding_length
      block_count := block_count
      feed_forward_length := feed_forward_length
      vocab_size := vocab_size
      attention :=
        { head_count := head_count
          head_count_kv := head_count_kv
          layer_norm_rms_epsilon := layer_norm_rms_epsilon }
      rope :=
        { freq_base := flookup md "llama.rope.freq_base"
          dimension_count := flookup md "llama.rope.dimension_count" } }

/-- The ordered substitution table `_name_replacements` of the
tensor-name translator, exactly as listed in the source. -/
def name_replacements : List (String × String) :=
  [ ("blk", "layers"),
    ("token_embd", "tok_embeddings"),
    ("attn_q", "attention.wq"),
    ("attn_k", "attention.wk"),
    ("attn_v", "attention.wv"),
    ("attn_output", "attention.wo"),
    ("attn_norm", "attention_norm"),
    ("output_norm.weight", "norm.weight"),
    ("ffn_down", "feed_forward.w2"),
    ("ffn_gate", "feed_forward.w1"),
    ("ffn_up", "feed_forward.w3") ]

/-- Recursion worker for `replaceSub`, structural on a fuel argument so
that it evaluates inside the kernel.  Every step consumes at least one
character, so any fuel of at least the input's length yields the
fuel-free fixpoint. -/
def replaceSubAux (pat rep : List Char) : Nat → List Char → List Char
  | _, [] => []
  | 0, s => s
  | fuel + 1, c :: rest =>
    if pat ≠ [] ∧ pat.isPrefixOf (c :: rest) then
      rep ++ replaceSubAux pat rep fuel ((c :: rest).drop pat.length)
    else
      c :: replaceSubAux pat rep fuel rest

/-- Python `str.replace`: replace every non-overlapping occurrence of
`pat`, scanning left to right.  An empty pattern never matches here
(the table's patterns are all nonempty; Python's empty-pattern corner
case is unreachable). -/
def replaceSub (pat rep s : List Char) : List Char :=
  replaceSubAux pat rep s.length s

/-- Substring occurrence test (used only in theorem statements about
collision-free names): does `pat` occur contiguously in `s`? -/
def containsSub (pat : List Char) : List Char → Bool
  | [] => pat.isEmpty
  | c :: rest => pat.isPrefixOf (c :: rest) || containsSub pat rest

/-- The tensor-name translator
(`_convert_gguf_tensor_name_to_llama_nn`): apply each substitution of
the table, in listed order, replacing every occurrence. -/
def convert_gguf_tensor_name_to_llama_nn (gguf_name : String) : String :=
  name_replacements.foldl
    (fun result pr => String.mk (replaceSub pr.1.data pr.2.data result.data))
    gguf_name

/-- The GGML tensor-encoding tag (`GGMLQuantizationType`), restricted to
the cases the converter distinguishes plus a catch-all for every other
encoding, which the converter silently skips. -/
inductive QuantType where
  | F32
  | F16
  | Q4_0
  | other (tag : Nat)
  deriving DecidableEq, Repr

/-- A symbolic tensor element (see the module comment): raw float32 or
float16 bits, a raw byte of a block-quantized payload, a dequantized
Q4_0 block element (the row's packed 16-bit scale together with the
element's 4-bit code), or the uninitialized value a freshly
instantiated parameter holds. -/
inductive Elem where
  | f32 (bits : Nat)
  | f16 (bits : Nat)
  | byte (b : Nat)
  | deq (scaleBits : Nat) (code : Nat)
  | undef
  deriving DecidableEq, Repr

/-- A dense host tensor (numpy array / torch tensor): a shape and the
flat row-major element data. -/
structure Tensor where
  shape : List Nat
  data : List Elem
  deriving DecidableEq, Repr

/-- A GGUF tensor as surfaced by the container reader (`ReaderTensor`):
logical name, encoding tag, declared GGUF dimension list (reversed
relative to the target model's row-major convention), and the flat raw
data (float elements for F32/F16, bytes for Q4_0). -/
structure ReaderTensor where
  name : String
  tensor_type : QuantType
  shape : List Nat
  data : List Elem
  deriving DecidableEq, Repr

/-- The ordered tensor collection of a GGUF file (`GGUFWeights`
dataclass). -/
structure GGUFWeights where
  tensors : List ReaderTensor
  deriving DecidableEq, Repr

/-- A parsed GGUF container: the normalized metadata mapping (the
metadata extractor's output) and the tensor list.  The byte-level
container parsing performed by the external `gguf` reader is below the
granularity of this embedding. -/
structure GGUFFile where
  metadata : Metadata
  tensors : List ReaderTensor

/-- numpy `data.reshape(shape)`: succeeds exactly when the element count
matches, raising a shape error otherwise. -/
def mkReshaped (d : List Elem) (s : List Nat) : Except Err Tensor :=
  if s.prod = d.length then Except.ok ⟨s, d⟩ else Except.error Err.shapeError

/-- numpy `data.reshape(-1, 18)`: view a flat buffer as rows of 18
entries; fails unless the length is a multiple of 18. -/
def reshapeRows18 (d : List Elem) : Except Err Tensor :=
  if d.length % 18 = 0 then Except.ok ⟨[d.length / 18, 18], d⟩
  else Except.error Err.shapeError

/-- The numeric value of a byte element (only ever applied to `.byte`
elements of a Q4_0 payload). -/
def byteVal : Elem → Nat
  | Elem.byte b => b
  | _ => 0

/-- Modelled from the spec: one step of the external Quantization Codec
(§4.6), which this repository consumes but does not implement.  One
18-byte row is one quantization block: the first 2 bytes are a packed
little-endian 16-bit scale and the remaining 16 bytes hold 32 4-bit
codes (low nibbles of the payload are elements 0–15, high nibbles are
elements 16–31); the row dequantizes to 32 elements, each carrying the
row's scale and its own code. -/
def dequantRow (row : List Elem) : List Elem :=
  let s := byteVal (row.getD 0 Elem.undef) + 256 * byteVal (row.getD 1 Elem.undef)
  (List.range 32).map fun j =>
    let b := byteVal (row.getD (2 + j % 16) Elem.undef)
    Elem.deq s (if j < 16 then b % 16 else b / 16)

/-- Recursion worker for `dequantRows`, structural on a fuel argument
so that it evaluates inside the kernel; every step consumes at least
one byte of the buffer. -/
def dequantRowsAux : Nat → List Elem → List Elem
  | _, [] => []
  | 0, _ => []
  | fuel + 1, bs => dequantRow (bs.take 18) ++ dequantRowsAux fuel (bs.drop 18)

/-- Modelled from the spec: dequantize a byte buffer block by block,
18 bytes at a time (§4.6). -/
def dequantRows (bs : List Elem) : List Elem :=
  dequantRowsAux bs.length bs

/-- Modelled from the spec: the external codec routine `to_float` — a
tensor viewed as rows of 18 bytes becomes a dense float tensor with 32
dequantized elements per row (§4.6). -/
def to_float (t : Tensor) : Tensor :=
  ⟨[t.data.length / 18, 32], dequantRows t.data⟩

/-- Modelled from the spec: the external codec routine
`_unpack_two_uint8` together with the enclosing
`torch.tensor(..., dtype=torch.float16)` — the 2-byte prefix of every
18-byte row is reinterpreted as one half-precision scale, giving a
scale tensor with exactly one entry per row (§4.5–4.6). -/
def unpackScale (packed : Tensor) : Tensor :=
  let rows := packed.shape.headD 0
  ⟨[rows], (List.range rows).map fun i =>
    Elem.f16 (byteVal (packed.data.getD (18 * i) Elem.undef) +
      256 * byteVal (packed.data.getD (18 * i + 1) Elem.undef))⟩

/-- The class of a node in the target-model object graph, recording
exactly what `isinstance` checks can observe.  Only
`ModuleKind.linear` (i.e. `torch.nn.Linear`) is ever tested by the
converter. -/
inductive ModuleKind where
  | linear
  | embedding
  | rmsnorm
  | attention
  | feedForward
  | block
  | moduleList
  | transformer
  deriving DecidableEq, Repr

/-- A parameter value: either an ordinary dense tensor or the Quantized
Weight Wrapper (`GGMLInt4LinearWeight`) carrying packed row data, the
decoded per-block scale tensor, and the logical dense shape it stands
for. -/
inductive PValue where
  | dense (t : Tensor)
  | qweight (packed : Tensor) (scale : Tensor) (shape : List Nat)
  deriving DecidableEq, Repr

/-- The `.shape` of a parameter value (a wrapper reports its logical
shape, as the Tensor-subclass wrapper does). -/
def PValue.shape : PValue → List Nat
  | PValue.dense t => t.shape
  | PValue.qweight _ _ s => s

/-- Replace the value at the first occurrence of a key, leaving the
list unchanged when the key is absent (used by `Module.setSlot`; the
written name always exists in every reachable execution, see there). -/
def assocReplace {β : Type} : List (String × β) → String → β → List (String × β)
  | [], _, _ => []
  | (k, w) :: rest, a, v =>
    if k = a then (k, v) :: rest else (k, w) :: assocReplace rest a v

mutual

/-- The target model's object graph, spec-modelled (§3: the `model`
module providing `Transformer` is not part of this repository): a tree
of named modules, each with an `isinstance`-observable kind, its own
named parameters, and named child modules.  `Children` is the spine of
the child list, mutually inductive with `Module` so that structural
recursion and induction stay first-order. -/
inductive Module where
  | mk (kind : ModuleKind) (params : List (String × PValue)) (children : Children)

/-- The named-child list of a module. -/
inductive Children where
  | nil
  | cons (name : String) (m : Module) (rest : Children)

end

/-- The kind of a module. -/
def Module.kind : Module → ModuleKind
  | Module.mk k _ _ => k

/-- The own parameters of a module. -/
def Module.params : Module → List (String × PValue)
  | Module.mk _ ps _ => ps

/-- The child list of a module. -/
def Module.children : Module → Children
  | Module.mk _ _ cs => cs

/-- The number of children in a child list. -/
def Children.length : Children → Nat
  | Children.nil => 0
  | Children.cons _ _ rest => 1 + rest.length

/-- Build a child list from a list of named modules. -/
def Children.ofList : List (String × Module) → Children
  | [] => Children.nil
  | (n, m) :: rest => Children.cons n m (Children.ofList rest)

/-- Split a character list at every `'.'` (Python `s.split(".")`):
always returns at least one piece, empty pieces included. -/
def splitCharsDot : List Char → List (List Char)
  | [] => [[]]
  | c :: rest =>
    if c = '.' then [] :: splitCharsDot rest
    else
      match splitCharsDot rest with
      | [] => [[c]]
      | h :: t => (c :: h) :: t

/-- Python `s.split(".")` on strings. -/
def splitOnDot (s : String) : List String :=
  (splitCharsDot s.data).map String.mk

/-- A fully-qualified parameter path, as the atom list obtained by
splitting the dotted string on `"."`.  All dotted-string manipulation
in the source (`fqn.split(".")`, `".".join(...)`, f-string
concatenation) is carried out on these atom lists; splitting on a
nonempty separator is injective, so comparing split keys agrees with
comparing the dotted strings the source compares. -/
abbrev Fqn := List String

mutual

/-- `named_parameters()` / `state_dict()` of a module: the module's own
parameters first, then each child's, prefixed by the child's name —
torch's traversal order.  The instantiated model registers no buffers,
so the two coincide (`state_dict` keys = parameter names). -/
def Module.state_dict : Module → List (Fqn × PValue)
  | Module.mk _ ps cs => ps.map (fun p => ([p.1], p.2)) ++ Children.state_dict cs

/-- `state_dict` of a child list. -/
def Children.state_dict : Children → List (Fqn × PValue)
  | Children.nil => []
  | Children.cons n m rest =>
    (Module.state_dict m).map (fun p => (n :: p.1, p.2)) ++ Children.state_dict rest

end

mutual

/-- Read the parameter slot at a path: walk child modules by name
(first match) through all leading atoms and look the final atom up in
the reached module's own parameters.  This is the canonical slot reader
matching how `state_dict` emits keys and how updates route. -/
def Module.getSlot : Module → Fqn → Option PValue
  | _, [] => none
  | Module.mk _ ps _, [a] => flookup ps a
  | Module.mk _ _ cs, a :: b :: rest => Children.getSlot cs a (b :: rest)

/-- Slot reading through a child list. -/
def Children.getSlot : Children → String → Fqn → Option PValue
  | Children.nil, _, _ => none
  | Children.cons n m rest, a, fq =>
    if n = a then Module.getSlot m fq else Children.getSlot rest a fq

end

mutual

/-- Replace the parameter slot at a path, leaving the tree unchanged
when the path does not resolve.  This is the effect of the source's
`parent.weight = torch.nn.Parameter(...)` (a `setattr` on the module
reached by the attribute walk): the walk and the write route through
the same first-match child lookups, and the written attribute name
always names an existing parameter in every reachable execution. -/
def Module.setSlot : Module → Fqn → PValue → Module
  | m, [], _ => m
  | Module.mk k ps cs, [a], v => Module.mk k (assocReplace ps a v) cs
  | Module.mk k ps cs, a :: b :: rest, v =>
    Module.mk k ps (Children.setSlot cs a (b :: rest) v)

/-- Slot replacement through a child list. -/
def Children.setSlot : Children → String → Fqn → PValue → Children
  | Children.nil, _, _, _ => Children.nil
  | Children.cons n m rest, a, fq, v =>
    if n = a then Children.cons n (Module.setSlot m fq v) rest
    else Children.cons n m (Children.setSlot rest a fq v)

end

/-- The result of a dynamic attribute walk (`_fqn_lookup`): either a
module or a parameter value. -/
inductive Attr where
  | mod (m : Module)
  | val (v : PValue)

mutual

/-- The dynamic attribute walk `_fqn_lookup`: starting from a module,
resolve each atom with `getattr`, which consults the module's
parameters first and then its child modules (`nn.Module.__getattr__`
order); `none` is Python's `AttributeError`.  A parameter reached
before the last atom cannot be walked further. -/
def Module.getAttr : Module → Fqn → Option Attr
  | m, [] => some (Attr.mod m)
  | Module.mk _ ps cs, a :: rest =>
    match flookup ps a with
    | some v => if rest = [] then some (Attr.val v) else none
    | none => Children.getAttr cs a rest

/-- Attribute walk through a child list. -/
def Children.getAttr : Children → String → Fqn → Option Attr
  | Children.nil, _, _ => none
  | Children.cons n m rest, a, fq =>
    if n = a then Module.getAttr m fq else Children.getAttr rest a fq

end

/-- Per-module parameter loading step of
`load_state_dict(..., strict=False)`: each own parameter whose name is
in the supplied dict is overwritten by the dict's tensor after torch's
size check — a mismatched shape is a `RuntimeError` even under
`strict=False`; absent names keep their value. -/
def loadParams : List (String × PValue) → (Fqn → Option Tensor) →
    Except Err (List (String × PValue))
  | [], _ => Except.ok []
  | (n, v) :: rest, f => do
    let v' ←
      match f [n] with
      | none => pure v
      | some t =>
        if t.shape = v.shape then pure (PValue.dense t)
        else Except.error Err.shapeError
    let rest' ← loadParams rest f
    Except.ok ((n, v') :: rest')

mutual

/-- `pt_model.load_state_dict(state_dict, strict=False)`: recurse
through the module tree exactly as torch does, consuming the dict at
each module through the accumulated name prefix; `strict=False` ignores
both missing and unexpected keys, but a size mismatch on a present key
still fails. -/
def Module.loadSD : Module → (Fqn → Option Tensor) → Except Err Module
  | Module.mk k ps cs, f => do
    let ps' ← loadParams ps f
    let cs' ← Children.loadSD cs f
    Except.ok (Module.mk k ps' cs')

/-- `load_state_dict` recursion over a child list. -/
def Children.loadSD : Children → (Fqn → Option Tensor) → Except Err Children
  | Children.nil, _ => Except.ok Children.nil
  | Children.cons n m rest, f => do
    let m' ← Module.loadSD m (fun fq => f (n :: fq))
    let rest' ← Children.loadSD rest f
    Except.ok (Children.cons n m' rest')

end

/-- Modelled from the spec: the target model's configuration record
(`ModelArgs` of the external `model` module, §4.4), holding exactly the
seven fields `_create_pt_model` populates.  Size fields are natural
numbers (the host library rejects anything else when building the
module graph); the normalization epsilon is carried through untyped. -/
structure ModelArgs where
  dim : Nat
  n_layer : Nat
  n_head : Nat
  n_local_heads : Nat
  vocab_size : Nat
  norm_eps : GGUFValue
  intermediate_size : Nat
  deriving DecidableEq, Repr

/-- A dense parameter holding its default (uninitialized) value for a
given shape. -/
def initParam (shape : List Nat) : PValue :=
  PValue.dense ⟨shape, List.replicate shape.prod Elem.undef⟩

/-- A module with a single `weight` parameter and no children. -/
def leafModule (k : ModuleKind) (shape : List Nat) : Module :=
  Module.mk k [("weight", initParam shape)] Children.nil

/-- Modelled from the spec: one transformer block of the target model
(§3 — attention and feed-forward sublayers with their own weight
parameters plus the two RMS norms).  `torch.nn.Linear(in, out)` stores
its weight as `(out, in)`; head dimension is `dim / n_head`. -/
def blockModule (a : ModelArgs) : Module :=
  let headDim := a.dim / a.n_head
  Module.mk ModuleKind.block []
    (Children.ofList
      [ ("attention", Module.mk ModuleKind.attention []
          (Children.ofList
            [ ("wq", leafModule ModuleKind.linear [a.n_head * headDim, a.dim]),
              ("wk", leafModule ModuleKind.linear [a.n_local_heads * headDim, a.dim]),
              ("wv", leafModule ModuleKind.linear [a.n_local_heads * headDim, a.dim]),
              ("wo", leafModule ModuleKind.linear [a.dim, a.dim]) ])),
        ("feed_forward", Module.mk ModuleKind.feedForward []
          (Children.ofList
            [ ("w1", leafModule ModuleKind.linear [a.intermediate_size, a.dim]),
              ("w2", leafModule ModuleKind.linear [a.dim, a.intermediate_size]),
              ("w3", leafModule ModuleKind.linear [a.intermediate_size, a.dim]) ])),
        ("attention_norm", leafModule ModuleKind.rmsnorm [a.dim]),
        ("ffn_norm", leafModule ModuleKind.rmsnorm [a.dim]) ])

/-- Modelled from the spec: the target model `Transformer` of the
external `model` module (§3 — embedding table, `n_layer` repeated
transformer blocks, final normalization, output head).  Inference mode
(`eval()`) has no observable effect on this structure. -/
def Transformer (a : ModelArgs) : Module :=
  Module.mk ModuleKind.transformer []
    (Children.ofList
      [ ("tok_embeddings", leafModule ModuleKind.embedding [a.vocab_size, a.dim]),
        ("layers", Module.mk ModuleKind.moduleList []
          (Children.ofList ((List.range a.n_layer).map
            (fun i => (toString i, blockModule a))))),
        ("norm", leafModule ModuleKind.rmsnorm [a.dim]),
        ("output", leafModule ModuleKind.linear [a.vocab_size, a.dim]) ])

/-- The instantiated target model: the configuration record it keeps as
`pt_model.params` plus its module tree. -/
structure PTModel where
  params : ModelArgs
  root : Module

/-- Modelled from the spec: coercion of a metadata value to a size
accepted by the host model library, which rejects non-integer or
negative sizes when building the module graph (`TypeError`). -/
def asNat : GGUFValue → Except Err Nat
  | GGUFValue.int n => if n < 0 then Except.error Err.typeError else Except.ok n.toNat
  | _ => Except.error Err.typeError

/-- `_create_pt_model`: map the architecture-description record
one-to-one onto the target model's configuration and instantiate the
model in inference mode.  The field mapping is exactly the source's
`ModelArgs(...)` call; the host library's rejection of ill-typed sizes
(which in Python would surface inside the external `Transformer`
constructor) is folded into the same function. -/
def create_pt_model (g : GGUFModelArgs) : Except Err PTModel := do
  let dim ← asNat g.embedding_length
  let n_layer ← asNat g.block_count
  let n_head ← asNat g.attention.head_count
  let n_local_heads ← asNat g.attention.head_count_kv
  let intermediate_size ← asNat g.feed_forward_length
  let llama_model_args : ModelArgs :=
    { dim := dim
      n_layer := n_layer
      n_head := n_head
      n_local_heads := n_local_heads
      vocab_size := g.vocab_size
      norm_eps := g.attention.layer_norm_rms_epsilon
      intermediate_size := intermediate_size }
  Except.ok { params := llama_model_args, root := Transformer llama_model_args }

/-- One iteration of the weight loader's first (state_dict) pass, for
one fully-qualified name of the model's structural state: a name with
no weight-map entry is skipped; a plain float32/float16 tensor is
reshaped to its reversed declared dimension order; a 4-bit
block-quantized tensor whose GGUF name is exactly `token_embd.weight`
is viewed as rows of 18 bytes, dequantized by the external codec and
reshaped to `(vocab_size, dim)`; every other encoding is skipped.
The source's loop header for this pass is syntactically malformed
(`for fqn, _ model.state_dict():`); per §4.5/§9 of the specification
the intended iteration is over the model's own `state_dict()` keys,
which is what is embedded here. -/
def stateDictPassStep (pt : PTModel) (weight_map : List (Fqn × ReaderTensor))
    (acc : List (Fqn × Tensor)) (fqn : Fqn) : Except Err (List (Fqn × Tensor)) :=
  match flookup weight_map fqn with
  | none => Except.ok acc
  | some tensor =>
    if tensor.tensor_type = QuantType.F32 ∨ tensor.tensor_type = QuantType.F16 then do
      let new_tensor ← mkReshaped tensor.data tensor.shape.reverse
      Except.ok (acc ++ [(fqn, new_tensor)])
    else if tensor.tensor_type = QuantType.Q4_0 ∧ tensor.name = "token_embd.weight" then do
      let packed ← reshapeRows18 tensor.data
      let unpacked := to_float packed
      let emb ← mkReshaped unpacked.data [pt.params.vocab_size, pt.params.dim]
      Except.ok (acc ++ [(fqn, emb)])
    else Except.ok acc

/-- The first pass of `_load_weights`: build the partial `state_dict`
to be loaded, visiting every name of the model's structural state in
traversal order. -/
def stateDictPass (pt : PTModel) (weight_map : List (Fqn × ReaderTensor)) :
    Except Err (List (Fqn × Tensor)) :=
  ((pt.root.state_dict).map (fun p => p.1)).foldlM (stateDictPassStep pt weight_map) []

/-- One iteration of the weight loader's second (parameter) pass, for
one named parameter: only 4-bit block-quantized weight-map entries are
considered; the parameter's parent module is located by walking its
path up one level (`_fqn_lookup(_fqn_up(fqn), pt_model)`), and when
that parent is a plain linear layer and the parameter is its `weight`,
the raw bytes are viewed as rows of 18 bytes, the 2-byte scale prefix
of every row is decoded, and the parent's weight is replaced in place
by the Quantized Weight Wrapper carrying the packed rows, the scale
tensor, and the current dense weight's shape.  The source's diagnostic
`print` has no bearing on the result and is not modelled. -/
def paramPassStep (weight_map : List (Fqn × ReaderTensor)) (root : Module)
    (fqn : Fqn) : Except Err Module :=
  match flookup weight_map fqn with
  | none => Except.ok root
  | some tensor =>
    if tensor.tensor_type = QuantType.Q4_0 then
      match Module.getAttr root fqn.dropLast with
      | none => Except.error Err.attributeError
      | some (Attr.val _) => Except.ok root
      | some (Attr.mod parent) =>
        if parent.kind = ModuleKind.linear ∧ fqn.getLastD "" = "weight" then do
          let packed ← reshapeRows18 tensor.data
          let scale := unpackScale packed
          match flookup parent.params "weight" with
          | none => Except.error Err.attributeError
          | some w =>
            Except.ok (root.setSlot fqn (PValue.qweight packed scale w.shape))
        else Except.ok root
    else Except.ok root

/-- The second pass of `_load_weights`, folding the per-parameter
substitution step over the model's parameter names.  Substitutions only
replace parameter values, never tree structure, so iterating the names
collected up front coincides with Python's live
`named_parameters()` generator. -/
def paramPass (weight_map : List (Fqn × ReaderTensor)) (root : Module) :
    Except Err Module :=
  ((root.state_dict).map (fun p => p.1)).foldlM (paramPassStep weight_map) root

/-- The two-pass weight loader `_load_weights`: the bulk state_dict
pass followed by `load_state_dict(..., strict=False)` ("allow partial
loading"), then the quantized-linear substitution pass.  The two
acknowledged TODO comments of the source (no completeness check, no
attention-mask special case) are behaviors, not code, and are preserved
by doing nothing. -/
def load_weights (pt : PTModel) (weight_map : List (Fqn × ReaderTensor)) :
    Except Err PTModel := do
  let state_dict ← stateDictPass pt weight_map
  let root1 ← pt.root.loadSD (fun fq => flookup state_dict fq)
  let root2 ← paramPass weight_map root1
  Except.ok { params := pt.params, root := root2 }

/-- A filesystem: the paths that refer to existing regular files,
together with the parsed GGUF container found there
(`Path(p).is_file()` is `fs p ≠ none`). -/
abbrev FileSystem := String → Option GGUFFile

/-- `load_gguf_file`: fail with `ValueError` (`Err.notFound`) when the
path does not refer to an existing regular file — eagerly, before the
reader is opened or any metadata extracted; otherwise build the
architecture-description record and hand back the unchanged tensor
collection. -/
def load_gguf_file (fs : FileSystem) (gguf_file : String) :
    Except Err (GGUFModelArgs × GGUFWeights) :=
  match fs gguf_file with
  | none => Except.error Err.notFound
  | some file => do
    let model_args ← build_model_args file.metadata
    Except.ok (model_args, { tensors := file.tensors })

/-- The weight map built by `convert_from_gguf`'s dict comprehension:
translated tensor name (split into path atoms) to the tensor bearing
it, a later duplicate overwriting an earlier one as in a Python dict
comprehension. -/
def buildWeightMap (tensors : List ReaderTensor) : List (Fqn × ReaderTensor) :=
  tensors.foldl
    (fun m tensor =>
      fset m (splitOnDot (convert_gguf_tensor_name_to_llama_nn tensor.name)) tensor)
    []

/-- `convert_from_gguf`: load the file, re-assert the architecture is
`"llama"` (defense in depth, redundant with the check inside
`_build_model_args`), instantiate the model, build the weight map, and
run the two-pass weight loader. -/
def convert_from_gguf (fs : FileSystem) (gguf_file : String) : Except Err PTModel := do
  let lg ← load_gguf_file fs gguf_file
  if lg.1.arch ≠ GGUFValue.str "llama" then
    throw Err.invalidInput
  let pt_model ← create_pt_model lg.1
  let weight_map := buildWeightMap lg.2.tensors
  load_weights pt_model weight_map

/-- `convert_from_gguf` with its redundant architecture re-assertion
removed, used to state that the re-assertion's error branch is
unreachable. -/
def convert_from_gguf_nocheck (fs : FileSystem) (gguf_file : String) :
    Except Err PTModel := do
  let lg ← load_gguf_file fs gguf_file
  let pt_model ← create_pt_model lg.1
  let weight_map := buildWeightMap lg.2.tensors
  load_weights pt_model weight_map

/-- The number of transformer blocks the instantiated model exposes:
the child count of its `layers` module list. -/
def Module.layerCount (m : Module) : Nat :=
  match m.getAttr ["layers"] with
  | some (Attr.mod l) => l.children.length
  | _ => 0

/-- A 32000-entry tokenizer vocabulary, for the concrete §8.4 example. -/
def exTokens : List String := List.replicate 32000 ""

/-- The concrete well-formed `"llama"` metadata mapping of §8.4 of the
specification. -/
def exMd : Metadata :=
  [ ("general.architecture", GGUFValue.str "llama"),
    ("general.file_type", GGUFValue.int 0),
    ("llama.embedding_length", GGUFValue.int 4096),
    ("llama.block_count", GGUFValue.int 2),
    ("llama.feed_forward_length", GGUFValue.int 11008),
    ("tokenizer.ggml.tokens", GGUFValue.strList exTokens),
    ("llama.attention.head_count", GGUFValue.int 32),
    ("llama.attention.head_count_kv", GGUFValue.int 32),
    ("llama.attention.layer_norm_rms_epsilon", GGUFValue.float (1 / 100000)) ]

/-- A small well-formed `"llama"` metadata mapping (3-token vocabulary,
one block) used to instantiate hypothesis-bearing theorems concretely. -/
def smallMd : Metadata :=
  [ ("general.architecture", GGUFValue.str "llama"),
    ("general.file_type", GGUFValue.int 1),
    ("llama.embedding_length", GGUFValue.int 2),
    ("llama.block_count", GGUFValue.int 1),
    ("llama.feed_forward_length", GGUFValue.int 2),
    ("tokenizer.ggml.tokens", GGUFValue.strList ["a", "b", "c"]),
    ("llama.attention.head_count", GGUFValue.int 1),
    ("llama.attention.head_count_kv", GGUFValue.int 1),
    ("llama.attention.layer_norm_rms_epsilon", GGUFValue.float (1 / 100000)) ]

/-- A filesystem holding one small well-formed llama file at
`"model.gguf"`. -/
def smallFs : FileSystem :=
  fun p => if p = "model.gguf" then some ⟨smallMd, []⟩ else none

/-- A filesystem holding one well-formed file declaring the unsupported
`"gpt2"` architecture. -/
def gpt2Fs : FileSystem :=
  fun p =>
    if p = "model.gguf" then some ⟨[("general.architecture", GGUFValue.str "gpt2")], []⟩
    else none

/-- A small concrete model configuration (dim 2, one layer, one head,
16-token vocabulary) for instantiating the weight-loader theorems. -/
def smallArgs : ModelArgs :=
  { dim := 2, n_layer := 1, n_head := 1, n_local_heads := 1,
    vocab_size := 16, norm_eps := GGUFValue.int 0, intermediate_size := 2 }

/-- The small concrete instantiated model. -/
def smallPT : PTModel := ⟨smallArgs, Transformer smallArgs⟩

/-- A concrete 4-bit block-quantized attention weight tensor (one
18-byte row) for the small model. -/
def wqTensor : ReaderTensor :=
  ⟨"blk.0.attn_q.weight", QuantType.Q4_0, [2, 2], List.replicate 18 (Elem.byte 9)⟩

/-- A concrete plain-float32 output-head tensor for the small model. -/
def outTensor : ReaderTensor :=
  ⟨"output.weight", QuantType.F32, [2, 16], List.replicate 32 (Elem.f32 3)⟩

/-- A concrete 4-bit block-quantized token-embedding tensor whose single
18-byte row dequantizes to the 32 elements of the small model's
embedding table. -/
def embTensor : ReaderTensor :=
  ⟨"token_embd.weight", QuantType.Q4_0, [2, 16], List.replicate 18 (Elem.byte 5)⟩

/-- A tiny model (4-token vocabulary, dim 2) whose embedding table has
8 elements — deliberately incompatible with any whole number of 32-element
quantization blocks. -/
def tinyArgs : ModelArgs :=
  { dim := 2, n_layer := 1, n_head := 1, n_local_heads := 1,
    vocab_size := 4, norm_eps := GGUFValue.int 0, intermediate_size := 2 }

/-- The tiny instantiated model. -/
def tinyPT : PTModel := ⟨tinyArgs, Transformer tinyArgs⟩

/-! ## Supporting lemmas -/

theorem replaceSubAux_of_not_contains (pat rep : List Char) (fuel : Nat) (s : List Char)
    (h : containsSub pat s = false) : replaceSubAux pat rep fuel s = s := by
  induction fuel generalizing s with
  | zero => cases s <;> rfl
  | succ fuel ih =>
    cases s with
    | nil => rfl
    | cons c rest =>
      rw [containsSub, Bool.or_eq_false_iff] at h
      rw [replaceSubAux, if_neg, ih rest h.2]
      intro hc
      rw [h.1] at hc
      exact Bool.noConfusion hc.2

theorem replaceSub_of_not_contains (pat rep s : List Char)
    (h : containsSub pat s = false) : replaceSub pat rep s = s :=
  replaceSubAux_of_not_contains pat rep s.length s h

theorem foldl_replace_id (rules : List (String × String)) (t : String)
    (h : ∀ pr ∈ rules, containsSub pr.1.data t.data = false) :
    rules.foldl (fun result pr => String.mk (replaceSub pr.1.data pr.2.data result.data)) t
      = t := by
  induction rules with
  | nil => rfl
  | cons r rest ih =>
    rw [List.foldl_cons, replaceSub_of_not_contains _ _ _ (h r (by simp))]
    have ht : String.mk t.data = t := by cases t; rfl
    rw [ht]
    exact ih fun pr hpr => h pr (List.mem_cons_of_mem _ hpr)

theorem ggufLen_error (v : GGUFValue) (e : Err) (h : ggufLen v = Except.error e) :
    e = Err.typeError := by
  cases v <;> simp [ggufLen] at h <;> exact h.symm

theorem build_arch_fail (md : Metadata) (v : GGUFValue)
    (h1 : flookup md "general.architecture" = some v) (h2 : v ≠ GGUFValue.str "llama") :
    build_model_args md = Except.error Err.invalidInput := by
  simp only [build_model_args, getReq, h1, bind, Except.bind]
  simp [h2]

theorem build_ft_fail (md : Metadata) (ft : GGUFValue)
    (h1 : flookup md "general.architecture" = some (GGUFValue.str "llama"))
    (h2 : flookup md "general.file_type" = some ft)
    (h3 : ¬ (ggufEqInt ft 0 = true ∨ ggufEqInt ft 1 = true)) :
    build_model_args md = Except.error Err.invalidInput := by
  simp only [build_model_args, getReq, h1, h2, bind, Except.bind, pure, Except.pure]
  rw [if_neg (by simp)]
  rw [if_pos h3]

theorem build_pass_ne_invalid (md : Metadata) (ft : GGUFValue)
    (h1 : flookup md "general.architecture" = some (GGUFValue.str "llama"))
    (h2 : flookup md "general.file_type" = some ft)
    (hft : ggufEqInt ft 0 = true ∨ ggufEqInt ft 1 = true) :
    build_model_args md ≠ Except.error Err.invalidInput := by
  simp only [build_model_args, getReq, h1, h2, bind, Except.bind, pure, Except.pure]
  rw [if_neg (by simp)]
  rw [if_neg (by simp [hft])]
  cases h3 : flookup md "llama.embedding_length" <;> simp only [h3]
  · simp
  cases h4 : flookup md "llama.block_count" <;> simp only [h4]
  · simp
  cases h5 : flookup md "llama.feed_forward_length" <;> simp only [h5]
  · simp
  cases h6 : flookup md "tokenizer.ggml.tokens" <;> simp only [h6]
  · simp
  case some tk =>
  cases h7 : ggufLen tk <;> simp only [h7]
  case error e =>
    rw [ggufLen_error tk e h7]
    simp
  cases h8 : flookup md "llama.attention.head_count" <;> simp only [h8]
  · simp
  cases h9 : flookup md "llama.attention.head_count_kv" <;> simp only [h9]
  · simp
  cases h10 : flookup md "llama.attention.layer_norm_rms_epsilon" <;> simp only [h10]
  · simp
  simp

theorem build_ok_arch (md : Metadata) (a : GGUFModelArgs)
    (h : build_model_args md = Except.ok a) : a.arch = GGUFValue.str "llama" := by
  simp only [build_model_args, getReq, bind, Except.bind, pure, Except.pure] at h
  repeat' split at h
  all_goals try exact Except.noConfusion h
  cases h
  simp_all

/-! ## Claim C1 — architecture and file-type validation -/

/-- C1: for every well-formed GGUF file whose metadata declares a
`general.architecture` other than `"llama"`, or a `general.file_type`
whose numeric value is neither `0` nor `1`, the conversion fails with
`InvalidInput` — at the architecture mapper, i.e. inside
`load_gguf_file` and hence before any model is instantiated (the
failing computation is the whole result); conversely, when the
architecture is `"llama"` and the file type is `0` or `1`, neither of
these two checks fails (`_build_model_args` never produces
`InvalidInput`, its only further failures being missing-key or
ill-typed-value errors). -/
theorem claim_C1_arch_filetype_checks :
    (∀ (md : Metadata) (v : GGUFValue),
      flookup md "general.architecture" = some v → v ≠ GGUFValue.str "llama" →
      build_model_args md = Except.error Err.invalidInput) ∧
    (∀ (md : Metadata) (n : Int),
      flookup md "general.architecture" = some (GGUFValue.str "llama") →
      flookup md "general.file_type" = some (GGUFValue.int n) →
      n ≠ 0 → n ≠ 1 →
      build_model_args md = Except.error Err.invalidInput) ∧
    (∀ (md : Metadata) (n : Int),
      flookup md "general.architecture" = some (GGUFValue.str "llama") →
      flookup md "general.file_type" = some (GGUFValue.int n) →
      (n = 0 ∨ n = 1) →
      build_model_args md ≠ Except.error Err.invalidInput) ∧
    (∀ (fs : FileSystem) (p : String) (file : GGUFFile) (v : GGUFValue),
      fs p = some file →
      flookup file.metadata "general.architecture" = some v →
      v ≠ GGUFValue.str "llama" →
      convert_from_gguf fs p = Except.error Err.invalidInput) ∧
    (∀ (fs : FileSystem) (p : String) (file : GGUFFile) (n : Int),
      fs p = some file →
      flookup file.metadata "general.architecture" = some (GGUFValue.str "llama") →
      flookup file.metadata "general.file_type" = some (GGUFValue.int n) →
      n ≠ 0 → n ≠ 1 →
      convert_from_gguf fs p = Except.error Err.invalidInput) := by
  refine ⟨build_arch_fail, ?_, ?_, ?_, ?_⟩
  · intro md n h1 h2 hn0 hn1
    exact build_ft_fail md _ h1 h2 (by simp [ggufEqInt, hn0, hn1])
  · intro md n h1 h2 hn
    exact build_pass_ne_invalid md _ h1 h2 (by rcases hn with h | h <;> simp [ggufEqInt, h])
  · intro fs p file v hfs hv hne
    simp only [convert_from_gguf, load_gguf_file, hfs, bind, Except.bind,
      build_arch_fail file.metadata v hv hne]
  · intro fs p file n hfs h1 h2 hn0 hn1
    simp only [convert_from_gguf, load_gguf_file, hfs, bind, Except.bind,
      build_ft_fail file.metadata _ h1 h2 (by simp [ggufEqInt, hn0, hn1])]

/-- Witness for C1: concrete instances — a `"gpt2"` file fails, a
`"llama"` file with file type `2` fails, and the §8.4 metadata (file
type `0`) passes both checks; a `"gpt2"` file also fails at the
`convert_from_gguf` level. -/
theorem claim_C1_arch_filetype_checks_witness :
    build_model_args [("general.architecture", GGUFValue.str "gpt2")]
      = Except.error Err.invalidInput ∧
    build_model_args
        [("general.architecture", GGUFValue.str "llama"),
         ("general.file_type", GGUFValue.int 2)]
      = Except.error Err.invalidInput ∧
    build_model_args exMd ≠ Except.error Err.invalidInput ∧
    convert_from_gguf gpt2Fs "model.gguf" = Except.error Err.invalidInput :=
  ⟨claim_C1_arch_filetype_checks.1 _ (GGUFValue.str "gpt2") rfl (by decide),
   claim_C1_arch_filetype_checks.2.1 _ 2 rfl rfl (by decide) (by decide),
   claim_C1_arch_filetype_checks.2.2.1 _ 0 rfl rfl (Or.inl rfl),
   claim_C1_arch_filetype_checks.2.2.2.1 gpt2Fs "model.gguf" _ (GGUFValue.str "gpt2")
     rfl rfl (by decide)⟩

/-! ## Claim C2 — the tensor-name translator -/

/-- C2: the tensor-name translator is a pure total function applying
the eleven listed substring substitutions in table order, replacing
every occurrence; it maps `blk.3.attn_q.weight` to
`layers.3.attention.wq.weight`, and for every input whose translation
contains none of the table's source substrings, applying the
translator twice equals applying it once. -/
theorem claim_C2_name_translator :
    name_replacements.length = 11 ∧
    convert_gguf_tensor_name_to_llama_nn "blk.3.attn_q.weight"
      = "layers.3.attention.wq.weight" ∧
    ∀ s : String,
      (∀ pr ∈ name_replacements,
        containsSub pr.1.data (convert_gguf_tensor_name_to_llama_nn s).data = false) →
      convert_gguf_tensor_name_to_llama_nn (convert_gguf_tensor_name_to_llama_nn s)
        = convert_gguf_tensor_name_to_llama_nn s :=
  ⟨rfl, rfl, fun _ h => foldl_replace_id _ _ h⟩

/-- Witness for C2: the idempotence hypothesis holds concretely at
`blk.3.attn_q.weight`, whose translation is collision-free. -/
theorem claim_C2_name_translator_witness :
    convert_gguf_tensor_name_to_llama_nn
        (convert_gguf_tensor_name_to_llama_nn "blk.3.attn_q.weight")
      = convert_gguf_tensor_name_to_llama_nn "blk.3.attn_q.weight" :=
  claim_C2_name_translator.2.2 "blk.3.attn_q.weight" (by decide)

theorem load_ok_arch (fs : FileSystem) (p : String) (args : GGUFModelArgs)
    (w : GGUFWeights) (h : load_gguf_file fs p = Except.ok (args, w)) :
    args.arch = GGUFValue.str "llama" := by
  cases hf : fs p <;> simp only [load_gguf_file, hf, bind, Except.bind] at h
  · exact Except.noConfusion h
  case some file =>
    cases hb : build_model_args file.metadata <;> simp only [hb] at h
    · exact Except.noConfusion h
    · cases h
      exact build_ok_arch _ _ hb

/-! ## Claim C8 — missing files fail eagerly with NotFound -/

/-- C8: for every path that does not refer to an existing regular file,
`load_gguf_file` fails with `NotFound`; the failure is the entire
result, produced before the reader is opened or any metadata
extracted, so no partial state is observable (the error also
propagates unchanged through `convert_from_gguf`). -/
theorem claim_C8_notfound :
    (∀ (fs : FileSystem) (p : String), fs p = none →
      load_gguf_file fs p = Except.error Err.notFound) ∧
    (∀ (fs : FileSystem) (p : String), fs p = none →
      convert_from_gguf fs p = Except.error Err.notFound) := by
  constructor
  · intro fs p h
    simp [load_gguf_file, h]
  · intro fs p h
    simp [convert_from_gguf, load_gguf_file, h, bind, Except.bind]

/-- Witness for C8: the empty filesystem at a concrete path. -/
theorem claim_C8_notfound_witness :
    load_gguf_file (fun _ => none) "model.gguf" = Except.error Err.notFound ∧
    convert_from_gguf (fun _ => none) "model.gguf" = Except.error Err.notFound :=
  ⟨claim_C8_notfound.1 (fun _ => none) "model.gguf" rfl,
   claim_C8_notfound.2 (fun _ => none) "model.gguf" rfl⟩

/-! ## Claim C9 — the architecture re-assertion is unreachable -/

/-- C9: every architecture-description record returned by a successful
`load_gguf_file` has `arch = "llama"`, so the re-assertion inside
`convert_from_gguf` can never fail once `load_gguf_file` has
succeeded: `convert_from_gguf` coincides with the variant whose
re-assertion is removed, on every input. -/
theorem claim_C9_arch_invariant :
    (∀ (fs : FileSystem) (p : String) (args : GGUFModelArgs) (w : GGUFWeights),
      load_gguf_file fs p = Except.ok (args, w) → args.arch = GGUFValue.str "llama") ∧
    (∀ (fs : FileSystem) (p : String),
      convert_from_gguf fs p = convert_from_gguf_nocheck fs p) := by
  refine ⟨load_ok_arch, ?_⟩
  intro fs p
  simp only [convert_from_gguf, convert_from_gguf_nocheck]
  cases hl : load_gguf_file fs p <;> simp only [hl, bind, Except.bind]
  case ok lg =>
    rw [if_neg (by simp [load_ok_arch fs p lg.1 lg.2 (by rw [hl])])]
    simp [pure, Except.pure]

/-- Witness for C9: the small concrete llama file loads successfully
and its record's `arch` is `"llama"`. -/
theorem claim_C9_arch_invariant_witness :
    ∃ (a : GGUFModelArgs) (w : GGUFWeights),
      load_gguf_file smallFs "model.gguf" = Except.ok (a, w) ∧
      a.arch = GGUFValue.str "llama" := by
  refine ⟨{ arch := GGUFValue.str "llama", embedding_length := GGUFValue.int 2,
            block_count := GGUFValue.int 1, feed_forward_length := GGUFValue.int 2,
            vocab_size := 3,
            attention := { head_count := GGUFValue.int 1, head_count_kv := GGUFValue.int 1,
                           layer_norm_rms_epsilon := GGUFValue.float (1 / 100000) },
            rope := { dimension_count := none, freq_base := none } }, ⟨[]⟩, rfl, ?_⟩
  exact claim_C9_arch_invariant.1 smallFs "model.gguf" _ _ rfl

/-! ## Claim C10 — the model instantiator ignores the rope configuration -/

/-- C10: two architecture-description records that differ only in their
rope fields produce identical results from `_create_pt_model`: the
instantiated model's configuration and shape are independent of
`llama.rope.freq_base` and `llama.rope.dimension_count`. -/
theorem claim_C10_rope_independence :
    ∀ (g : GGUFModelArgs) (r r' : RopeArgs),
      create_pt_model { g with rope := r } = create_pt_model { g with rope := r' } :=
  fun _ _ _ => rfl

theorem Children.length_ofList (l : List (String × Module)) :
    (Children.ofList l).length = l.length := by
  induction l with
  | nil => rfl
  | cons p rest ih =>
    simp [Children.ofList, Children.length, ih]
    omega

theorem layerCount_Transformer (a : ModelArgs) :
    (Transformer a).layerCount = a.n_layer := by
  show Children.length
    (Children.ofList ((List.range a.n_layer).map (fun i => (toString i, blockModule a))))
    = a.n_layer
  rw [Children.length_ofList, List.length_map, List.length_range]

/-! ## Claim C6 — the architecture projection and the instantiated depth -/

/-- C6: for every well-formed `"llama"` metadata mapping, the
architecture-description record's `vocab_size` is the length of the
`tokenizer.ggml.tokens` string array (not any explicit
vocabulary-size field — none is even read), its `block_count` is the
`llama.block_count` metadata value, and the model instantiated from the
record exposes exactly `block_count` transformer blocks. -/
theorem claim_C6_vocab_blocks :
    ∀ (md : Metadata) (toks : List String) (ft e b f hc hkv : Int) (eps : GGUFValue),
      flookup md "general.architecture" = some (GGUFValue.str "llama") →
      flookup md "general.file_type" = some (GGUFValue.int ft) →
      (ft = 0 ∨ ft = 1) →
      flookup md "llama.embedding_length" = some (GGUFValue.int e) → 0 ≤ e →
      flookup md "llama.block_count" = some (GGUFValue.int b) → 0 ≤ b →
      flookup md "llama.feed_forward_length" = some (GGUFValue.int f) → 0 ≤ f →
      flookup md "tokenizer.ggml.tokens" = some (GGUFValue.strList toks) →
      flookup md "llama.attention.head_count" = some (GGUFValue.int hc) → 0 ≤ hc →
      flookup md "llama.attention.head_count_kv" = some (GGUFValue.int hkv) → 0 ≤ hkv →
      flookup md "llama.attention.layer_norm_rms_epsilon" = some eps →
      ∃ (args : GGUFModelArgs) (pt : PTModel),
        build_model_args md = Except.ok args ∧
        args.vocab_size = toks.length ∧
        args.block_count = GGUFValue.int b ∧
        create_pt_model args = Except.ok pt ∧
        pt.params.n_layer = b.toNat ∧
        pt.root.layerCount = b.toNat := by
  intro md toks ft e b f hc hkv eps hA hF hft hE he hB hb hFF hf hT hH hhc hK hkv0 hEps
  have hbuild : build_model_args md = Except.ok
      { arch := GGUFValue.str "llama", embedding_length := GGUFValue.int e,
        block_count := GGUFValue.int b, feed_forward_length := GGUFValue.int f,
        vocab_size := toks.length,
        attention := { head_count := GGUFValue.int hc, head_count_kv := GGUFValue.int hkv,
                       layer_norm_rms_epsilon := eps },
        rope := { dimension_count := flookup md "llama.rope.dimension_count",
                  freq_base := flookup md "llama.rope.freq_base" } } := by
    simp only [build_model_args, getReq, hA, hF, hE, hB, hFF, hT, hH, hK, hEps,
      ggufLen, bind, Except.bind, pure, Except.pure]
    rw [if_neg (by simp)]
    rw [if_neg (by rcases hft with h | h <;> simp [ggufEqInt, h])]
  have hcreate : create_pt_model
      { arch := GGUFValue.str "llama", embedding_length := GGUFValue.int e,
        block_count := GGUFValue.int b, feed_forward_length := GGUFValue.int f,
        vocab_size := toks.length,
        attention := { head_count := GGUFValue.int hc, head_count_kv := GGUFValue.int hkv,
                       layer_norm_rms_epsilon := eps },
        rope := { dimension_count := flookup md "llama.rope.dimension_count",
                  freq_base := flookup md "llama.rope.freq_base" } } = Except.ok
      ⟨{ dim := e.toNat, n_layer := b.toNat, n_head := hc.toNat, n_local_heads := hkv.toNat,
         vocab_size := toks.length, norm_eps := eps, intermediate_size := f.toNat },
       Transformer
        { dim := e.toNat, n_layer := b.toNat, n_head := hc.toNat, n_local_heads := hkv.toNat,
          vocab_size := toks.length, norm_eps := eps, intermediate_size := f.toNat }⟩ := by
    simp only [create_pt_model, asNat, bind, Except.bind, pure, Except.pure]
    rw [if_neg (by omega), if_neg (by omega), if_neg (by omega), if_neg (by omega),
      if_neg (by omega)]
  exact ⟨_, _, hbuild, rfl, rfl, hcreate, rfl, layerCount_Transformer _⟩

/-- Witness for C6: the concrete §8.4 metadata yields
`vocab_size = 32000`, `block_count = 2`, and a model with exactly two
transformer blocks. -/
theorem claim_C6_vocab_blocks_witness :
    ∃ (args : GGUFModelArgs) (pt : PTModel),
      build_model_args exMd = Except.ok args ∧
      args.vocab_size = 32000 ∧
      args.block_count = GGUFValue.int 2 ∧
      create_pt_model args = Except.ok pt ∧
      pt.params.n_layer = 2 ∧
      pt.root.layerCount = 2 := by
  obtain ⟨args, pt, h1, h2, h3, h4, h5, h6⟩ :=
    claim_C6_vocab_blocks exMd exTokens 0 4096 2 11008 32 32
      (GGUFValue.float (1 / 100000)) rfl rfl (Or.inl rfl) rfl (by decide) rfl (by decide)
      rfl (by decide) rfl rfl (by decide) rfl (by decide) rfl
  refine ⟨args, pt, h1, ?_, h3, h4, h5, h6⟩
  rw [h2]
  show (List.replicate 32000 "").length = 32000
  rw [List.length_replicate]

/-! ## Module-tree lemmas -/

theorem flookup_assocReplace {β : Type} (ps : List (String × β)) (a b : String) (v : β) :
    flookup (assocReplace ps a v) b
      = if b = a then (flookup ps b).map (fun _ => v) else flookup ps b := by
  induction ps with
  | nil => simp [assocReplace, flookup]
  | cons p rest ih =>
    obtain ⟨k, w⟩ := p
    by_cases hka : k = a
    · by_cases hkb : k = b
      · have hba : b = a := hkb.symm.trans hka
        simp [assocReplace, flookup, hka, hkb, hba]
      · have hbk : ¬ b = k := fun h => hkb h.symm
        have hba : ¬ b = a := fun h => hbk (h.trans hka.symm)
        have hab : ¬ a = b := fun h => hkb (hka.trans h)
        simp [assocReplace, flookup, hka, hkb, hba, hab]
    · by_cases hkb : k = b
      · have hba : ¬ b = a := fun h => hka (hkb.trans h)
        simp [assocReplace, flookup, hka, hkb, hba]
      · simp [assocReplace, flookup, hka, hkb, ih]

theorem Module.kind_setSlot (m : Module) (p : Fqn) (v : PValue) :
    (m.setSlot p v).kind = m.kind := by
  cases m with
  | mk k ps cs =>
    cases p with
    | nil => rfl
    | cons a rest => cases rest <;> rfl

theorem Module.params_setSlot_deep (m : Module) (a b : String) (rest : Fqn) (v : PValue) :
    (m.setSlot (a :: b :: rest) v).params = m.params := by
  cases m; rfl

theorem Module.params_setSlot_single (m : Module) (a : String) (v : PValue) :
    (m.setSlot [a] v).params = assocReplace m.params a v := by
  cases m; rfl

mutual

theorem Module.getSlot_setSlot (m : Module) (p q : Fqn) (v : PValue) :
    (m.setSlot p v).getSlot q
      = if q = p then (m.getSlot q).map (fun _ => v) else m.getSlot q := by
  cases m with
  | mk k ps cs =>
    cases p with
    | nil =>
      cases q with
      | nil => simp [Module.setSlot, Module.getSlot]
      | cons b fq' => simp [Module.setSlot]
    | cons a p' =>
      cases p' with
      | nil =>
        cases q with
        | nil => simp [Module.setSlot, Module.getSlot]
        | cons b fq' =>
          cases fq' with
          | nil =>
            simp only [Module.setSlot, Module.getSlot, flookup_assocReplace]
            by_cases hba : b = a <;> simp [hba]
          | cons b2 fq'' => simp [Module.setSlot, Module.getSlot]
      | cons a2 p'' =>
        cases q with
        | nil => simp [Module.setSlot, Module.getSlot]
        | cons b fq' =>
          cases fq' with
          | nil => simp [Module.setSlot, Module.getSlot]
          | cons b2 fq'' =>
            simp only [Module.setSlot, Module.getSlot]
            rw [Children.getSlot_setSlot_spine cs a (a2 :: p'') b (b2 :: fq'') v]
            by_cases hb : b = a <;> by_cases hf : (b2 :: fq'') = (a2 :: p'') <;>
              simp [hb, hf]

theorem Children.getSlot_setSlot_spine (cs : Children) (a : String) (p' : Fqn) (b : String)
    (fq' : Fqn) (v : PValue) :
    (Children.setSlot cs a p' v).getSlot b fq'
      = if b = a ∧ fq' = p' then (Children.getSlot cs b fq').map (fun _ => v)
        else Children.getSlot cs b fq' := by
  cases cs with
  | nil =>
    simp only [Children.setSlot, Children.getSlot]
    by_cases h : b = a ∧ fq' = p' <;> simp [h]
  | cons n c rest =>
    by_cases hna : n = a <;> by_cases hnb : n = b
    · subst hna; subst hnb
      simp only [Children.setSlot, if_pos rfl, Children.getSlot]
      rw [Module.getSlot_setSlot c p' fq' v]
      simp
    · subst hna
      simp only [Children.setSlot, if_pos rfl, Children.getSlot, if_neg hnb]
      have : ¬ (b = n ∧ fq' = p') := fun hc => hnb hc.1.symm
      simp [this]
    · subst hnb
      simp only [Children.setSlot, if_neg hna, Children.getSlot, if_pos rfl]
      have : ¬ (n = a ∧ fq' = p') := fun hc => hna hc.1
      simp [this]
    · simp only [Children.setSlot, if_neg hna, Children.getSlot, if_neg hnb]
      rw [Children.getSlot_setSlot_spine rest a p' b fq' v]

end

mutual

theorem Module.getAttr_setSlot_mod (m : Module) (q p : Fqn) (v : PValue) (mm : Module)
    (h : m.getAttr q = some (Attr.mod mm)) :
    (m.setSlot p v).getAttr q
      = some (Attr.mod (if q.isPrefixOf p = true then mm.setSlot (List.drop q.length p) v
          else mm)) := by
  cases m with
  | mk k ps cs =>
    cases q with
    | nil =>
      simp only [Module.getAttr, Option.some.injEq, Attr.mod.injEq] at h
      subst h
      simp [Module.getAttr, List.isPrefixOf]
    | cons a q' =>
      have hps : flookup ps a = none := by
        cases hl : flookup ps a with
        | none => rfl
        | some w =>
          simp only [Module.getAttr, hl] at h
          cases q' <;> simp at h
      simp only [Module.getAttr, hps] at h
      cases p with
      | nil =>
        simp [Module.setSlot, Module.getAttr, hps, h, List.isPrefixOf]
      | cons x p' =>
        cases p' with
        | nil =>
          have hred :
              (if (a :: q').isPrefixOf [x] = true
                then mm.setSlot (List.drop (a :: q').length [x]) v else mm) = mm := by
            by_cases hpre : (a :: q').isPrefixOf [x] = true
            · have hq : q' = [] := by
                cases q' with
                | nil => rfl
                | cons y ys => simp [List.isPrefixOf] at hpre
              subst hq
              simp [hpre, Module.setSlot]
            · simp [hpre]
          rw [hred]
          simp only [Module.setSlot, Module.getAttr, flookup_assocReplace, hps]
          by_cases hax : a = x
          · subst hax
            simp [hps, h]
          · simp [hax, hps, h]
        | cons x2 p'' =>
          simp only [Module.setSlot, Module.getAttr, hps]
          rw [Children.getAttr_setSlot_mod_spine cs a q' x (x2 :: p'') v mm h]
          by_cases hax : a = x
          · subst hax
            by_cases hqp : q'.isPrefixOf (x2 :: p'') = true <;>
              simp [hqp, List.isPrefixOf]
          · simp [hax, List.isPrefixOf]

theorem Children.getAttr_setSlot_mod_spine (cs : Children) (a : String) (q' : Fqn) (x : String)
    (p' : Fqn) (v : PValue) (mm : Module)
    (h : Children.getAttr cs a q' = some (Attr.mod mm)) :
    Children.getAttr (Children.setSlot cs x p' v) a q'
      = some (Attr.mod (if a = x ∧ q'.isPrefixOf p' = true
          then mm.setSlot (List.drop q'.length p') v else mm)) := by
  cases cs with
  | nil => exact absurd h (by simp [Children.getAttr])
  | cons n c rest =>
    by_cases hna : n = a
    · rw [Children.getAttr, if_pos hna] at h
      by_cases hnx : n = x
      · have hax : a = x := hna.symm.trans hnx
        simp only [Children.setSlot, if_pos hnx, Children.getAttr, if_pos hna]
        rw [Module.getAttr_setSlot_mod c q' p' v mm h]
        by_cases hqp : q'.isPrefixOf p' = true <;> simp [hqp, hax]
      · have hax : ¬ a = x := fun hh => hnx (hna.trans hh)
        simp only [Children.setSlot, if_neg hnx, Children.getAttr, if_pos hna, h]
        simp [hax]
    · rw [Children.getAttr, if_neg hna] at h
      by_cases hnx : n = x
      · have hax : ¬ a = x := fun hh => hna (hnx.trans hh.symm)
        simp only [Children.setSlot, if_pos hnx, Children.getAttr, if_neg hna, h]
        simp [hax]
      · simp only [Children.setSlot, if_neg hnx, Children.getAttr, if_neg hna]
        exact Children.getAttr_setSlot_mod_spine rest a q' x p' v mm h

end

mutual

theorem Module.getAttr_setSlot_none (m : Module) (q p : Fqn) (v : PValue)
    (h : m.getAttr q = none) : (m.setSlot p v).getAttr q = none := by
  cases m with
  | mk k ps cs =>
    cases q with
    | nil => simp [Module.getAttr] at h
    | cons a q' =>
      cases hl : flookup ps a with
      | some w =>
        simp only [Module.getAttr, hl] at h
        have hq : ¬ q' = [] := by
          intro hq
          rw [if_pos hq] at h
          exact Option.noConfusion h
        cases p with
        | nil => simp [Module.setSlot, Module.getAttr, hl, hq]
        | cons x p' =>
          cases p' with
          | nil =>
            simp only [Module.setSlot, Module.getAttr, flookup_assocReplace]
            by_cases hax : a = x
            · subst hax
              simp [hl, hq]
            · simp [hax, hl, hq]
          | cons x2 p'' =>
            simp [Module.setSlot, Module.getAttr, hl, hq]
      | none =>
        simp only [Module.getAttr, hl] at h
        cases p with
        | nil => simp [Module.setSlot, Module.getAttr, hl, h]
        | cons x p' =>
          cases p' with
          | nil =>
            simp only [Module.setSlot, Module.getAttr, flookup_assocReplace]
            by_cases hax : a = x
            · subst hax
              simp [hl, h]
            · simp [hax, hl, h]
          | cons x2 p'' =>
            simp only [Module.setSlot, Module.getAttr, hl]
            exact Children.getAttr_setSlot_none_spine cs a q' x (x2 :: p'') v h

theorem Children.getAttr_setSlot_none_spine (cs : Children) (a : String) (q' : Fqn) (x : String)
    (p' : Fqn) (v : PValue) (h : Children.getAttr cs a q' = none) :
    Children.getAttr (Children.setSlot cs x p' v) a q' = none := by
  cases cs with
  | nil => simp [Children.getAttr, Children.setSlot]
  | cons n c rest =>
    by_cases hna : n = a
    · rw [Children.getAttr, if_pos hna] at h
      by_cases hnx : n = x
      · simp only [Children.setSlot, if_pos hnx, Children.getAttr, if_pos hna]
        exact Module.getAttr_setSlot_none c q' p' v h
      · simp only [Children.setSlot, if_neg hnx, Children.getAttr, if_pos hna, h]
    · rw [Children.getAttr, if_neg hna] at h
      by_cases hnx : n = x
      · simp only [Children.setSlot, if_pos hnx, Children.getAttr, if_neg hna, h]
      · simp only [Children.setSlot, if_neg hnx, Children.getAttr, if_neg hna]
        exact Children.getAttr_setSlot_none_spine rest a q' x p' v h

end

mutual

theorem Module.getAttr_setSlot_val (m : Module) (q p : Fqn) (v w : PValue)
    (h : m.getAttr q = some (Attr.val w)) :
    ∃ w', (m.setSlot p v).getAttr q = some (Attr.val w') := by
  cases m with
  | mk k ps cs =>
    cases q with
    | nil => simp [Module.getAttr] at h
    | cons a q' =>
      cases hl : flookup ps a with
      | some u =>
        simp only [Module.getAttr, hl] at h
        have hq : q' = [] := by
          by_cases hq : q' = []
          · exact hq
          · rw [if_neg hq] at h
            exact absurd h (by simp)
        subst hq
        cases p with
        | nil => exact ⟨u, by simp [Module.setSlot, Module.getAttr, hl]⟩
        | cons x p' =>
          cases p' with
          | nil =>
            by_cases hax : a = x
            · subst hax
              exact ⟨v, by simp [Module.setSlot, Module.getAttr, flookup_assocReplace, hl]⟩
            · exact ⟨u, by simp [Module.setSlot, Module.getAttr, flookup_assocReplace,
                hax, hl]⟩
          | cons x2 p'' =>
            exact ⟨u, by simp [Module.setSlot, Module.getAttr, hl]⟩
      | none =>
        simp only [Module.getAttr, hl] at h
        cases p with
        | nil => exact ⟨w, by simp [Module.setSlot, Module.getAttr, hl, h]⟩
        | cons x p' =>
          cases p' with
          | nil =>
            refine ⟨w, ?_⟩
            simp only [Module.setSlot, Module.getAttr, flookup_assocReplace]
            by_cases hax : a = x
            · subst hax
              simp [hl, h]
            · simp [hax, hl, h]
          | cons x2 p'' =>
            obtain ⟨w', hw'⟩ := Children.getAttr_setSlot_val_spine cs a q' x (x2 :: p'') v w h
            exact ⟨w', by simp [Module.setSlot, Module.getAttr, hl, hw']⟩

theorem Children.getAttr_setSlot_val_spine (cs : Children) (a : String) (q' : Fqn) (x : String)
    (p' : Fqn) (v w : PValue) (h : Children.getAttr cs a q' = some (Attr.val w)) :
    ∃ w', Children.getAttr (Children.setSlot cs x p' v) a q' = some (Attr.val w') := by
  cases cs with
  | nil => simp [Children.getAttr] at h
  | cons n c rest =>
    by_cases hna : n = a
    · rw [Children.getAttr, if_pos hna] at h
      by_cases hnx : n = x
      · obtain ⟨w', hw'⟩ := Module.getAttr_setSlot_val c q' p' v w h
        refine ⟨w', ?_⟩
        rw [Children.setSlot, if_pos hnx, Children.getAttr, if_pos hna]
        exact hw'
      · refine ⟨w, ?_⟩
        rw [Children.setSlot, if_neg hnx, Children.getAttr, if_pos hna]
        exact h
    · rw [Children.getAttr, if_neg hna] at h
      by_cases hnx : n = x
      · refine ⟨w, ?_⟩
        rw [Children.setSlot, if_pos hnx, Children.getAttr, if_neg hna]
        exact h
      · obtain ⟨w', hw'⟩ := Children.getAttr_setSlot_val_spine rest a q' x p' v w h
        refine ⟨w', ?_⟩
        rw [Children.setSlot, if_neg hnx, Children.getAttr, if_neg hna]
        exact hw'

end

theorem flookup_mem {β : Type} (ps : List (String × β)) (a : String) (w : β)
    (h : flookup ps a = some w) : (a, w) ∈ ps := by
  induction ps with
  | nil => simp [flookup] at h
  | cons p rest ih =>
    obtain ⟨k, v⟩ := p
    by_cases hka : k = a
    · rw [flookup, if_pos hka] at h
      cases h
      subst hka
      exact List.mem_cons_self _ _
    · rw [flookup, if_neg hka] at h
      exact List.mem_cons_of_mem _ (ih h)

mutual

theorem Module.getSlot_append (m : Module) (q : Fqn) (a : String) (mm : Module)
    (h : m.getAttr q = some (Attr.mod mm)) :
    m.getSlot (q ++ [a]) = flookup mm.params a := by
  cases m with
  | mk k ps cs =>
    cases q with
    | nil =>
      simp only [Module.getAttr, Option.some.injEq, Attr.mod.injEq] at h
      subst h
      simp [Module.getSlot, Module.params]
    | cons b q' =>
      have hps : flookup ps b = none := by
        cases hl : flookup ps b with
        | none => rfl
        | some w =>
          simp only [Module.getAttr, hl] at h
          cases q' <;> simp at h
      simp only [Module.getAttr, hps] at h
      cases q' with
      | nil =>
        show Children.getSlot cs b [a] = flookup mm.params a
        exact Children.getSlot_append_spine cs b [] a mm h
      | cons y ys =>
        show Children.getSlot cs b ((y :: ys) ++ [a]) = flookup mm.params a
        exact Children.getSlot_append_spine cs b (y :: ys) a mm h

theorem Children.getSlot_append_spine (cs : Children) (b : String) (q' : Fqn) (a : String)
    (mm : Module) (h : Children.getAttr cs b q' = some (Attr.mod mm)) :
    Children.getSlot cs b (q' ++ [a]) = flookup mm.params a := by
  cases cs with
  | nil => simp [Children.getAttr] at h
  | cons n c rest =>
    by_cases hnb : n = b
    · rw [Children.getAttr, if_pos hnb] at h
      rw [Children.getSlot, if_pos hnb]
      exact Module.getSlot_append c q' a mm h
    · rw [Children.getAttr, if_neg hnb] at h
      rw [Children.getSlot, if_neg hnb]
      exact Children.getSlot_append_spine rest b q' a mm h

end

mutual

theorem Module.getSlot_mem (m : Module) (p : Fqn) (w : PValue)
    (h : m.getSlot p = some w) : p ∈ (m.state_dict).map Prod.fst := by
  cases m with
  | mk k ps cs =>
    cases p with
    | nil => simp [Module.getSlot] at h
    | cons a p' =>
      cases p' with
      | nil =>
        have hm : (a, w) ∈ ps := flookup_mem ps a w h
        simp only [Module.state_dict, List.map_append, List.map_map]
        refine List.mem_append_left _ ?_
        exact List.mem_map.mpr ⟨(a, w), hm, rfl⟩
      | cons b p'' =>
        have := Children.getSlot_mem_spine cs a (b :: p'') w h
        simp only [Module.state_dict, List.map_append]
        exact List.mem_append_right _ this

theorem Children.getSlot_mem_spine (cs : Children) (a : String) (fq : Fqn) (w : PValue)
    (h : Children.getSlot cs a fq = some w) :
    (a :: fq) ∈ (Children.state_dict cs).map Prod.fst := by
  cases cs with
  | nil => simp [Children.getSlot] at h
  | cons n c rest =>
    by_cases hna : n = a
    · rw [Children.getSlot, if_pos hna] at h
      have := Module.getSlot_mem c fq w h
      obtain ⟨pr, hpr, hfst⟩ := List.mem_map.mp this
      simp only [Children.state_dict, List.map_append, List.map_map]
      refine List.mem_append_left _ ?_
      refine List.mem_map.mpr ⟨pr, hpr, ?_⟩
      simp [hna, hfst]
    · rw [Children.getSlot, if_neg hna] at h
      have := Children.getSlot_mem_spine rest a fq w h
      simp only [Children.state_dict, List.map_append]
      exact List.mem_append_right _ this

end

theorem loadParams_ok_flookup (ps ps' : List (String × PValue)) (f : Fqn → Option Tensor)
    (h : loadParams ps f = Except.ok ps') (a : String) :
    flookup ps' a
      = match flookup ps a with
        | none => none
        | some w => some (match f [a] with | some t => PValue.dense t | none => w) := by
  induction ps generalizing ps' with
  | nil =>
    simp only [loadParams] at h
    cases h
    simp [flookup]
  | cons p rest ih =>
    obtain ⟨n, v⟩ := p
    cases hfn : f [n] with
    | none =>
      simp only [loadParams, hfn, bind, Except.bind, pure, Except.pure] at h
      cases hr : loadParams rest f <;> rw [hr] at h
      · exact Except.noConfusion h
      · cases h
        by_cases hna : n = a
        · subst hna
          simp [flookup, hfn]
        · simp only [flookup, if_neg hna]
          exact ih _ hr
    | some t =>
      simp only [loadParams, hfn, bind, Except.bind, pure, Except.pure] at h
      by_cases hsh : t.shape = v.shape
      · rw [if_pos hsh] at h
        cases hr : loadParams rest f <;> rw [hr] at h
        · exact Except.noConfusion h
        · cases h
          by_cases hna : n = a
          · subst hna
            simp [flookup, hfn]
          · simp only [flookup, if_neg hna]
            exact ih _ hr
      · rw [if_neg hsh] at h
        exact Except.noConfusion h

theorem loadParams_ok_keys (ps ps' : List (String × PValue)) (f : Fqn → Option Tensor)
    (h : loadParams ps f = Except.ok ps') : ps'.map Prod.fst = ps.map Prod.fst := by
  induction ps generalizing ps' with
  | nil =>
    simp only [loadParams] at h
    cases h
    rfl
  | cons p rest ih =>
    obtain ⟨n, v⟩ := p
    cases hfn : f [n] with
    | none =>
      simp only [loadParams, hfn, bind, Except.bind, pure, Except.pure] at h
      cases hr : loadParams rest f <;> rw [hr] at h
      · exact Except.noConfusion h
      · cases h
        simp [ih _ hr]
    | some t =>
      simp only [loadParams, hfn, bind, Except.bind, pure, Except.pure] at h
      by_cases hsh : t.shape = v.shape
      · rw [if_pos hsh] at h
        cases hr : loadParams rest f <;> rw [hr] at h
        · exact Except.noConfusion h
        · cases h
          simp [ih _ hr]
      · rw [if_neg hsh] at h
        exact Except.noConfusion h

mutual

theorem Module.loadSD_ok_getSlot (m m' : Module) (f : Fqn → Option Tensor)
    (h : m.loadSD f = Except.ok m') (p : Fqn) :
    m'.getSlot p
      = match m.getSlot p with
        | none => none
        | some w => some (match f p with | some t => PValue.dense t | none => w) := by
  cases m with
  | mk k ps cs =>
    simp only [Module.loadSD, bind, Except.bind] at h
    cases hp : loadParams ps f <;> rw [hp] at h
    · exact Except.noConfusion h
    case ok ps' =>
    cases hc : Children.loadSD cs f <;> rw [hc] at h
    · exact Except.noConfusion h
    case ok cs' =>
    simp only [pure, Except.pure, Except.ok.injEq] at h
    subst h
    cases p with
    | nil => simp [Module.getSlot]
    | cons a p' =>
      cases p' with
      | nil =>
        show flookup ps' a = _
        rw [loadParams_ok_flookup ps ps' f hp a]
        rfl
      | cons b p'' =>
        show Children.getSlot cs' a (b :: p'') = _
        exact Children.loadSD_ok_getSlot_spine cs cs' f hc a (b :: p'')

theorem Children.loadSD_ok_getSlot_spine (cs cs' : Children) (f : Fqn → Option Tensor)
    (h : Children.loadSD cs f = Except.ok cs') (a : String) (fq : Fqn) :
    Children.getSlot cs' a fq
      = match Children.getSlot cs a fq with
        | none => none
        | some w => some (match f (a :: fq) with | some t => PValue.dense t | none => w) := by
  cases cs with
  | nil =>
    simp only [Children.loadSD] at h
    cases h
    simp [Children.getSlot]
  | cons n c rest =>
    simp only [Children.loadSD, bind, Except.bind] at h
    cases hm : c.loadSD (fun fq => f (n :: fq)) <;> rw [hm] at h
    · exact Except.noConfusion h
    case ok c' =>
    cases hr : Children.loadSD rest f <;> rw [hr] at h
    · exact Except.noConfusion h
    case ok rest' =>
    simp only [pure, Except.pure, Except.ok.injEq] at h
    subst h
    by_cases hna : n = a
    · rw [Children.getSlot, if_pos hna, Children.getSlot, if_pos hna]
      rw [Module.loadSD_ok_getSlot c c' _ hm fq]
      subst hna
      rfl
    · rw [Children.getSlot, if_neg hna, Children.getSlot, if_neg hna]
      exact Children.loadSD_ok_getSlot_spine rest rest' f hr a fq

end

mutual

theorem Module.loadSD_ok_getAttr_mod (m m' : Module) (f : Fqn → Option Tensor)
    (q : Fqn) (mm : Module) (h : m.loadSD f = Except.ok m')
    (hq : m.getAttr q = some (Attr.mod mm)) :
    ∃ mm', m'.getAttr q = some (Attr.mod mm') ∧ mm'.kind = mm.kind := by
  cases m with
  | mk k ps cs =>
    simp only [Module.loadSD, bind, Except.bind] at h
    cases hp : loadParams ps f <;> rw [hp] at h
    · exact Except.noConfusion h
    case ok ps' =>
    cases hc : Children.loadSD cs f <;> rw [hc] at h
    · exact Except.noConfusion h
    case ok cs' =>
    simp only [pure, Except.pure, Except.ok.injEq] at h
    subst h
    cases q with
    | nil =>
      simp only [Module.getAttr, Option.some.injEq, Attr.mod.injEq] at hq
      subst hq
      exact ⟨_, rfl, rfl⟩
    | cons a q' =>
      have hps : flookup ps a = none := by
        cases hl : flookup ps a with
        | none => rfl
        | some w =>
          simp only [Module.getAttr, hl] at hq
          cases q' <;> simp at hq
      simp only [Module.getAttr, hps] at hq
      have hps' : flookup ps' a = none := by
        rw [loadParams_ok_flookup ps ps' f hp a, hps]
      simp only [Module.getAttr, hps']
      exact Children.loadSD_ok_getAttr_mod_spine cs cs' f a q' mm hc hq

theorem Children.loadSD_ok_getAttr_mod_spine (cs cs' : Children) (f : Fqn → Option Tensor)
    (a : String) (q' : Fqn) (mm : Module) (h : Children.loadSD cs f = Except.ok cs')
    (hq : Children.getAttr cs a q' = some (Attr.mod mm)) :
    ∃ mm', Children.getAttr cs' a q' = some (Attr.mod mm') ∧ mm'.kind = mm.kind := by
  cases cs with
  | nil => simp [Children.getAttr] at hq
  | cons n c rest =>
    simp only [Children.loadSD, bind, Except.bind] at h
    cases hm : c.loadSD (fun fq => f (n :: fq)) <;> rw [hm] at h
    · exact Except.noConfusion h
    case ok c' =>
    cases hr : Children.loadSD rest f <;> rw [hr] at h
    · exact Except.noConfusion h
    case ok rest' =>
    simp only [pure, Except.pure, Except.ok.injEq] at h
    subst h
    by_cases hna : n = a
    · rw [Children.getAttr, if_pos hna] at hq
      obtain ⟨mm', hmm', hk⟩ := Module.loadSD_ok_getAttr_mod c c' _ q' mm hm hq
      exact ⟨mm', by rw [Children.getAttr, if_pos hna]; exact hmm', hk⟩
    · rw [Children.getAttr, if_neg hna] at hq
      obtain ⟨mm', hmm', hk⟩ := Children.loadSD_ok_getAttr_mod_spine rest rest' f a q' mm hr hq
      exact ⟨mm', by rw [Children.getAttr, if_neg hna]; exact hmm', hk⟩

end

mutual

theorem Module.loadSD_ok_keys (m m' : Module) (f : Fqn → Option Tensor)
    (h : m.loadSD f = Except.ok m') :
    (m'.state_dict).map Prod.fst = (m.state_dict).map Prod.fst := by
  cases m with
  | mk k ps cs =>
    simp only [Module.loadSD, bind, Except.bind] at h
    cases hp : loadParams ps f <;> rw [hp] at h
    · exact Except.noConfusion h
    case ok ps' =>
    cases hc : Children.loadSD cs f <;> rw [hc] at h
    · exact Except.noConfusion h
    case ok cs' =>
    simp only [pure, Except.pure, Except.ok.injEq] at h
    subst h
    have hk := loadParams_ok_keys ps ps' f hp
    have hck := Children.loadSD_ok_keys_spine cs cs' f hc
    simp only [Module.state_dict, List.map_append, List.map_map, hck]
    congr 1
    have : ∀ (l : List (String × PValue)),
        l.map (Prod.fst ∘ fun p => (([p.1] : Fqn), p.2)) = (l.map Prod.fst).map
          (fun s => ([s] : Fqn)) := by
      intro l
      simp [List.map_map]
    rw [this, this, hk]

theorem Children.loadSD_ok_keys_spine (cs cs' : Children) (f : Fqn → Option Tensor)
    (h : Children.loadSD cs f = Except.ok cs') :
    (Children.state_dict cs').map Prod.fst = (Children.state_dict cs).map Prod.fst := by
  cases cs with
  | nil =>
    simp only [Children.loadSD] at h
    cases h
    rfl
  | cons n c rest =>
    simp only [Children.loadSD, bind, Except.bind] at h
    cases hm : c.loadSD (fun fq => f (n :: fq)) <;> rw [hm] at h
    · exact Except.noConfusion h
    case ok c' =>
    cases hr : Children.loadSD rest f <;> rw [hr] at h
    · exact Except.noConfusion h
    case ok rest' =>
    simp only [pure, Except.pure, Except.ok.injEq] at h
    subst h
    have hk := Module.loadSD_ok_keys c c' _ hm
    have hrk := Children.loadSD_ok_keys_spine rest rest' f hr
    simp only [Children.state_dict, List.map_append, List.map_map, hrk]
    congr 1
    have hcomp : ∀ (mo : Module),
        (mo.state_dict).map (Prod.fst ∘ fun p => ((n :: p.1 : Fqn), p.2))
          = ((mo.state_dict).map Prod.fst).map (fun fq => (n :: fq : Fqn)) := by
      intro mo
      simp [List.map_map]
    rw [hcomp, hcomp, hk]

end

theorem dequantRow_length (row : List Elem) : (dequantRow row).length = 32 := by
  simp [dequantRow]

theorem dequantRowsAux_length (fuel : Nat) (bs : List Elem) (hf : bs.length ≤ fuel)
    (hd : 18 ∣ bs.length) :
    (dequantRowsAux fuel bs).length = 32 * (bs.length / 18) := by
  induction fuel generalizing bs with
  | zero =>
    cases bs with
    | nil => simp [dequantRowsAux]
    | cons e bs' => simp at hf
  | succ fuel ih =>
    cases bs with
    | nil => simp [dequantRowsAux]
    | cons e bs' =>
      obtain ⟨c, hc⟩ := hd
      have hc1 : 1 ≤ c := by
        rcases Nat.eq_zero_or_pos c with h0 | h1
        · rw [h0, Nat.mul_zero] at hc
          exact absurd hc (by simp)
        · exact h1
      have hlen : (e :: bs').length ≥ 18 := by
        rw [hc]
        omega
      have hdrop_len : ((e :: bs').drop 18).length = (e :: bs').length - 18 := by
        simp
      have hdvd' : 18 ∣ ((e :: bs').drop 18).length := by
        rw [hdrop_len, hc]
        exact ⟨c - 1, by omega⟩
      have hle' : ((e :: bs').drop 18).length ≤ fuel := by
        rw [hdrop_len]
        omega
      rw [dequantRowsAux, List.length_append, dequantRow_length, ih _ hle' hdvd',
        hdrop_len, hc]
      have h18 : (18 : Nat) * c / 18 = c := Nat.mul_div_cancel_left c (by norm_num)
      have h18' : (18 * c - 18) / 18 = c - 1 := by
        have : 18 * c - 18 = 18 * (c - 1) := by omega
        rw [this]
        exact Nat.mul_div_cancel_left _ (by norm_num)
      rw [h18, h18']
      · omega
      · simp

theorem dequantRows_length (bs : List Elem) (hd : 18 ∣ bs.length) :
    (dequantRows bs).length = 32 * (bs.length / 18) :=
  dequantRowsAux_length bs.length bs (Nat.le_refl _) hd

theorem unpackScale_length (n : Nat) (d : List Elem) :
    (unpackScale ⟨[n, 18], d⟩).data.length = n := by
  simp [unpackScale]

theorem unpackScale_shape (n : Nat) (d : List Elem) :
    (unpackScale ⟨[n, 18], d⟩).shape = [n] := by
  simp [unpackScale]

theorem paramPassStep_skip_none (wm : List (Fqn × ReaderTensor)) (root : Module) (fqn : Fqn)
    (h : flookup wm fqn = none) : paramPassStep wm root fqn = Except.ok root := by
  simp [paramPassStep, h]

theorem paramPassStep_skip_type (wm : List (Fqn × ReaderTensor)) (root : Module) (fqn : Fqn)
    (t : ReaderTensor) (h : flookup wm fqn = some t)
    (ht : ¬ t.tensor_type = QuantType.Q4_0) : paramPassStep wm root fqn = Except.ok root := by
  simp [paramPassStep, h, ht]

theorem paramPassStep_skip_val (wm : List (Fqn × ReaderTensor)) (root : Module) (fqn : Fqn)
    (t : ReaderTensor) (w : PValue) (h : flookup wm fqn = some t)
    (hp : root.getAttr fqn.dropLast = some (Attr.val w)) :
    paramPassStep wm root fqn = Except.ok root := by
  by_cases ht : t.tensor_type = QuantType.Q4_0 <;> simp [paramPassStep, h, ht, hp]

theorem paramPassStep_skip_cond (wm : List (Fqn × ReaderTensor)) (root : Module) (fqn : Fqn)
    (t : ReaderTensor) (parent : Module) (h : flookup wm fqn = some t)
    (hp : root.getAttr fqn.dropLast = some (Attr.mod parent))
    (hc : ¬ (parent.kind = ModuleKind.linear ∧ fqn.getLastD "" = "weight")) :
    paramPassStep wm root fqn = Except.ok root := by
  simp only [paramPassStep, h]
  by_cases ht : t.tensor_type = QuantType.Q4_0
  · rw [if_pos ht]
    simp only [hp]
    rw [if_neg hc]
  · rw [if_neg ht]

theorem paramPassStep_err_none (wm : List (Fqn × ReaderTensor)) (root : Module) (fqn : Fqn)
    (t : ReaderTensor) (h : flookup wm fqn = some t)
    (ht : t.tensor_type = QuantType.Q4_0) (hp : root.getAttr fqn.dropLast = none) :
    paramPassStep wm root fqn = Except.error Err.attributeError := by
  simp [paramPassStep, h, ht, hp]

theorem paramPassStep_action (wm : List (Fqn × ReaderTensor)) (root : Module) (fqn : Fqn)
    (t : ReaderTensor) (parent : Module) (w : PValue) (h : flookup wm fqn = some t)
    (ht : t.tensor_type = QuantType.Q4_0)
    (hp : root.getAttr fqn.dropLast = some (Attr.mod parent))
    (hk : parent.kind = ModuleKind.linear) (hl : fqn.getLastD "" = "weight")
    (hd : t.data.length % 18 = 0) (hw : flookup parent.params "weight" = some w) :
    paramPassStep wm root fqn
      = Except.ok (root.setSlot fqn
          (PValue.qweight ⟨[t.data.length / 18, 18], t.data⟩
            (unpackScale ⟨[t.data.length / 18, 18], t.data⟩) w.shape)) := by
  simp only [paramPassStep, h]
  rw [if_pos ht]
  simp only [hp]
  rw [if_pos (And.intro hk hl)]
  simp only [reshapeRows18]
  rw [if_pos hd]
  simp only [bind, Except.bind, hw]

theorem paramPassStep_ok_cases (wm : List (Fqn × ReaderTensor)) (root : Module) (fqn : Fqn)
    (root' : Module) (h : paramPassStep wm root fqn = Except.ok root') :
    root' = root ∨ (fqn.getLastD "" = "weight" ∧ ∃ v, root' = root.setSlot fqn v) := by
  cases hw : flookup wm fqn
  · rw [paramPassStep_skip_none wm root fqn hw] at h
    cases h
    exact Or.inl rfl
  case some t =>
  by_cases ht : t.tensor_type = QuantType.Q4_0
  case neg =>
    rw [paramPassStep_skip_type wm root fqn t hw ht] at h
    cases h
    exact Or.inl rfl
  case pos =>
  cases hp : root.getAttr fqn.dropLast
  · rw [paramPassStep_err_none wm root fqn t hw ht hp] at h
    exact Except.noConfusion h
  case some attr =>
  cases attr with
  | val w =>
    rw [paramPassStep_skip_val wm root fqn t w hw hp] at h
    cases h
    exact Or.inl rfl
  | mod parent =>
    by_cases hc : parent.kind = ModuleKind.linear ∧ fqn.getLastD "" = "weight"
    · simp only [paramPassStep, hw] at h
      rw [if_pos ht] at h
      simp only [hp] at h
      rw [if_pos hc] at h
      simp only [bind, Except.bind] at h
      cases hr : reshapeRows18 t.data <;> rw [hr] at h
      · exact Except.noConfusion h
      · cases hwp : flookup parent.params "weight" <;> rw [hwp] at h
        · exact Except.noConfusion h
        · cases h
          exact Or.inr ⟨hc.2, _, rfl⟩
    · rw [paramPassStep_skip_cond wm root fqn t parent hw hp hc] at h
      cases h
      exact Or.inl rfl

theorem fqn_decomp : ∀ (l : List String), l ≠ [] → l = l.dropLast ++ [l.getLastD ""] := by
  intro l
  induction l with
  | nil => intro h; exact absurd rfl h
  | cons a rest ih =>
    intro _
    cases rest with
    | nil => rfl
    | cons b rest' =>
      have := ih (by simp)
      calc a :: b :: rest' = a :: ((b :: rest').dropLast ++ [(b :: rest').getLastD ""]) := by
            rw [← this]
        _ = (a :: b :: rest').dropLast ++ [(a :: b :: rest').getLastD ""] := by
            simp [List.dropLast, List.getLastD]

theorem getLastD_append_singleton (q : List String) (x : String) :
    (q ++ [x]).getLastD "" = x := by
  induction q with
  | nil => rfl
  | cons a rest ih =>
    cases rest with
    | nil => rfl
    | cons b rest' => simp [List.getLastD]

theorem foldl_paramPass_preserve (wm : List (Fqn × ReaderTensor)) (fqn : Fqn)
    (hself : ∀ r : Module, paramPassStep wm r fqn = Except.ok r) :
    ∀ (L : List Fqn) (r r' : Module),
      L.foldlM (paramPassStep wm) r = Except.ok r' →
      r'.getSlot fqn = r.getSlot fqn := by
  intro L
  induction L with
  | nil =>
    intro r r' h
    rw [List.foldlM_nil] at h
    cases h
    rfl
  | cons p rest ih =>
    intro r r' h
    rw [List.foldlM_cons] at h
    simp only [bind, Except.bind] at h
    cases hs : paramPassStep wm r p <;> rw [hs] at h
    · exact Except.noConfusion h
    case ok r₁ =>
    have htail := ih r₁ r' h
    by_cases hpq : p = fqn
    · subst hpq
      rw [hself r] at hs
      cases hs
      exact htail
    · rcases paramPassStep_ok_cases wm r p r₁ hs with hid | ⟨_, v, hset⟩
      · rw [htail, hid]
      · rw [htail, hset, Module.getSlot_setSlot]
        rw [if_neg (fun hh => hpq hh.symm)]

theorem foldl_paramPass_preserve_parent (wm : List (Fqn × ReaderTensor)) (fqn : Fqn) :
    ∀ (L : List Fqn) (r r' : Module) (par : Module),
      r.getAttr fqn.dropLast = some (Attr.mod par) →
      ¬ par.kind = ModuleKind.linear →
      L.foldlM (paramPassStep wm) r = Except.ok r' →
      r'.getSlot fqn = r.getSlot fqn := by
  intro L
  induction L with
  | nil =>
    intro r r' par _ _ h
    rw [List.foldlM_nil] at h
    cases h
    rfl
  | cons p rest ih =>
    intro r r' par hpar hk h
    rw [List.foldlM_cons] at h
    simp only [bind, Except.bind] at h
    cases hs : paramPassStep wm r p <;> rw [hs] at h
    · exact Except.noConfusion h
    case ok r₁ =>
    by_cases hpq : p = fqn
    · subst hpq
      have hskip : paramPassStep wm r p = Except.ok r := by
        cases hw : flookup wm p
        · exact paramPassStep_skip_none wm r p hw
        case some t =>
          exact paramPassStep_skip_cond wm r p t par hw hpar (fun hc => hk hc.1)
      rw [hskip] at hs
      cases hs
      exact ih r r' par hpar hk h
    · rcases paramPassStep_ok_cases wm r p r₁ hs with hid | ⟨_, v, hset⟩
      · subst hid
        exact ih r₁ r' par hpar hk h
      · subst hset
        have hpar' := Module.getAttr_setSlot_mod r fqn.dropLast p v par hpar
        have hk' : (if (fqn.dropLast).isPrefixOf p = true
            then par.setSlot (List.drop fqn.dropLast.length p) v else par).kind
              = par.kind := by
          by_cases hpre : (fqn.dropLast).isPrefixOf p = true
          · rw [if_pos hpre, Module.kind_setSlot]
          · rw [if_neg hpre]
        have := ih (r.setSlot p v) r' _ hpar' (by rw [hk']; exact hk) h
        rw [this, Module.getSlot_setSlot, if_neg (fun hh => hpq hh.symm)]

theorem foldl_paramPass_frame_ne (wm : List (Fqn × ReaderTensor)) (fqn : Fqn) :
    ∀ (L : List Fqn) (r r' : Module), fqn ∉ L →
      L.foldlM (paramPassStep wm) r = Except.ok r' →
      r'.getSlot fqn = r.getSlot fqn := by
  intro L
  induction L with
  | nil =>
    intro r r' _ h
    rw [List.foldlM_nil] at h
    cases h
    rfl
  | cons p rest ih =>
    intro r r' hmem h
    rw [List.foldlM_cons] at h
    simp only [bind, Except.bind] at h
    cases hs : paramPassStep wm r p <;> rw [hs] at h
    · exact Except.noConfusion h
    case ok r₁ =>
    have hne : p ≠ fqn := fun hh => hmem (hh ▸ List.mem_cons_self p rest)
    have htail := ih r₁ r' (fun hh => hmem (List.mem_cons_of_mem p hh)) h
    rcases paramPassStep_ok_cases wm r p r₁ hs with hid | ⟨_, v, hset⟩
    · rw [htail, hid]
    · rw [htail, hset, Module.getSlot_setSlot, if_neg (fun hh => hne hh.symm)]

theorem foldl_paramPass_action (wm : List (Fqn × ReaderTensor)) (fqn : Fqn)
    (t : ReaderTensor) (w0 : PValue) (hwm : flookup wm fqn = some t)
    (ht : t.tensor_type = QuantType.Q4_0) (hd : t.data.length % 18 = 0)
    (hlast : fqn.getLastD "" = "weight") :
    ∀ (L : List Fqn) (r r' par : Module),
      fqn ∈ L → L.Nodup →
      r.getAttr fqn.dropLast = some (Attr.mod par) →
      par.kind = ModuleKind.linear →
      flookup par.params "weight" = some w0 →
      L.foldlM (paramPassStep wm) r = Except.ok r' →
      r'.getSlot fqn
        = some (PValue.qweight ⟨[t.data.length / 18, 18], t.data⟩
            (unpackScale ⟨[t.data.length / 18, 18], t.data⟩) w0.shape) := by
  have hfqdec : fqn = fqn.dropLast ++ ["weight"] := by
    have hne : fqn ≠ [] := by
      intro hnil
      rw [hnil] at hlast
      exact absurd hlast (by decide)
    have := fqn_decomp fqn hne
    rw [hlast] at this
    exact this
  intro L
  induction L with
  | nil =>
    intro r r' par hmem
    exact absurd hmem (List.not_mem_nil fqn)
  | cons p rest ih =>
    intro r r' par hmem hnd hpar hk hw h
    rw [List.foldlM_cons] at h
    simp only [bind, Except.bind] at h
    cases hs : paramPassStep wm r p <;> rw [hs] at h
    · exact Except.noConfusion h
    case ok r₁ =>
    by_cases hpq : p = fqn
    · subst hpq
      rw [paramPassStep_action wm r p t par w0 hwm ht hpar hk hlast hd hw] at hs
      cases hs
      have hnotin : p ∉ rest := (List.nodup_cons.mp hnd).1
      have hframe := foldl_paramPass_frame_ne wm p rest _ r' hnotin h
      rw [hframe, Module.getSlot_setSlot, if_pos rfl]
      have hbr : r.getSlot p = flookup par.params "weight" := by
        conv_lhs => rw [hfqdec]
        exact Module.getSlot_append r p.dropLast "weight" par hpar
      rw [hbr, hw]
      rfl
    · have hmem' : fqn ∈ rest := by
        rcases List.mem_cons.mp hmem with he | hm
        · exact absurd he.symm hpq
        · exact hm
      have hnd' := (List.nodup_cons.mp hnd).2
      rcases paramPassStep_ok_cases wm r p r₁ hs with hid | ⟨hleaf, v, hset⟩
      · subst hid
        exact ih r₁ r' par hmem' hnd' hpar hk hw h
      · subst hset
        have hpar' := Module.getAttr_setSlot_mod r fqn.dropLast p v par hpar
        refine ih (r.setSlot p v) r' _ hmem' hnd' hpar' ?_ ?_ h
        · by_cases hpre : (fqn.dropLast).isPrefixOf p = true
          · rw [if_pos hpre, Module.kind_setSlot]
            exact hk
          · rw [if_neg hpre]
            exact hk
        · by_cases hpre : (fqn.dropLast).isPrefixOf p = true
          · have hspre : fqn.dropLast <+: p := List.isPrefixOf_iff_prefix.mp hpre
            obtain ⟨s, hs_eq⟩ := hspre
            have hdrop : List.drop fqn.dropLast.length p = s := by
              rw [← hs_eq, List.drop_left]
            rw [if_pos hpre, hdrop]
            cases s with
            | nil =>
              simp only [Module.setSlot]
              exact hw
            | cons x s' =>
              cases s' with
              | nil =>
                have hx : x = "weight" := by
                  have hgl := getLastD_append_singleton fqn.dropLast x
                  rw [hs_eq] at hgl
                  rw [← hgl, hleaf]
                have hpfqn : p = fqn := by
                  rw [← hs_eq, hx, ← hfqdec]
                exact absurd hpfqn hpq
              | cons y s'' =>
                rw [Module.params_setSlot_deep]
                exact hw
          · rw [if_neg hpre]
            exact hw

theorem foldl_paramPass_untouched (wm : List (Fqn × ReaderTensor)) (q : Fqn) :
    ∀ (L : List Fqn) (r r' : Module),
      (q.getLastD "" ≠ "weight"
        ∨ (∃ par, r.getAttr q.dropLast = some (Attr.mod par)
            ∧ ¬ par.kind = ModuleKind.linear)
        ∨ r.getAttr q.dropLast = none
        ∨ (∃ w, r.getAttr q.dropLast = some (Attr.val w))) →
      L.foldlM (paramPassStep wm) r = Except.ok r' →
      r'.getSlot q = r.getSlot q := by
  intro L
  induction L with
  | nil =>
    intro r r' _ h
    rw [List.foldlM_nil] at h
    cases h
    rfl
  | cons p rest ih =>
    intro r r' hP h
    rw [List.foldlM_cons] at h
    simp only [bind, Except.bind] at h
    cases hs : paramPassStep wm r p <;> rw [hs] at h
    · exact Except.noConfusion h
    case ok r₁ =>
    by_cases hpq : p = q
    · subst hpq
      have hid : r₁ = r := by
        cases hw : flookup wm p
        · rw [paramPassStep_skip_none wm r p hw] at hs
          cases hs
          rfl
        case some t =>
        by_cases htq : t.tensor_type = QuantType.Q4_0
        case neg =>
          rw [paramPassStep_skip_type wm r p t hw htq] at hs
          cases hs
          rfl
        case pos =>
        cases hp2 : r.getAttr p.dropLast
        · rw [paramPassStep_err_none wm r p t hw htq hp2] at hs
          exact Except.noConfusion hs
        case some attr =>
        cases attr with
        | val w =>
          rw [paramPassStep_skip_val wm r p t w hw hp2] at hs
          cases hs
          rfl
        | mod par =>
          have hcond : ¬ (par.kind = ModuleKind.linear ∧ p.getLastD "" = "weight") := by
            rcases hP with hleaf | ⟨par0, hpar0, hk0⟩ | hnone | ⟨w0, hval0⟩
            · exact fun hc => hleaf hc.2
            · rw [hp2] at hpar0
              cases hpar0
              exact fun hc => hk0 hc.1
            · rw [hp2] at hnone
              exact Option.noConfusion hnone
            · rw [hp2] at hval0
              cases hval0
          rw [paramPassStep_skip_cond wm r p t par hw hp2 hcond] at hs
          cases hs
          rfl
      rw [hid] at h
      exact ih r r' hP h
    · rcases paramPassStep_ok_cases wm r p r₁ hs with hid | ⟨hleaf, v, hset⟩
      · subst hid
        exact ih r₁ r' hP h
      · subst hset
        have hP' : q.getLastD "" ≠ "weight"
            ∨ (∃ par, (r.setSlot p v).getAttr q.dropLast = some (Attr.mod par)
                ∧ ¬ par.kind = ModuleKind.linear)
            ∨ (r.setSlot p v).getAttr q.dropLast = none
            ∨ (∃ w, (r.setSlot p v).getAttr q.dropLast = some (Attr.val w)) := by
          rcases hP with hleaf | ⟨par, hpar, hk⟩ | hnone | ⟨w0, hval⟩
          · exact Or.inl hleaf
          · refine Or.inr (Or.inl ⟨_, Module.getAttr_setSlot_mod r q.dropLast p v par hpar,
              ?_⟩)
            by_cases hpre : (q.dropLast).isPrefixOf p = true
            · rw [if_pos hpre, Module.kind_setSlot]
              exact hk
            · rw [if_neg hpre]
              exact hk
          · exact Or.inr (Or.inr (Or.inl
              (Module.getAttr_setSlot_none r q.dropLast p v hnone)))
          · obtain ⟨w', hw'⟩ := Module.getAttr_setSlot_val r q.dropLast p v w0 hval
            exact Or.inr (Or.inr (Or.inr ⟨w', hw'⟩))
        have hrec := ih (r.setSlot p v) r' hP' h
        rw [hrec, Module.getSlot_setSlot, if_neg (fun hh => hpq hh.symm)]

theorem flookup_append_singleton {κ β : Type} [DecidableEq κ] (l : List (κ × β))
    (k a : κ) (v : β) :
    flookup (l ++ [(a, v)]) k
      = match flookup l k with
        | some w => some w
        | none => if a = k then some v else none := by
  induction l with
  | nil => simp [flookup]
  | cons p rest ih =>
    obtain ⟨k', w'⟩ := p
    by_cases hk : k' = k
    · simp [flookup, hk]
    · simp only [List.cons_append, flookup, if_neg hk]
      exact ih

theorem mkReshaped_ok (d : List Elem) (s : List Nat) (t : Tensor)
    (h : mkReshaped d s = Except.ok t) : t = ⟨s, d⟩ ∧ s.prod = d.length := by
  simp only [mkReshaped] at h
  by_cases hc : s.prod = d.length
  · rw [if_pos hc] at h
    cases h
    exact ⟨rfl, hc⟩
  · rw [if_neg hc] at h
    exact Except.noConfusion h

theorem reshapeRows18_ok (d : List Elem) (t : Tensor)
    (h : reshapeRows18 d = Except.ok t) :
    t = ⟨[d.length / 18, 18], d⟩ ∧ d.length % 18 = 0 := by
  simp only [reshapeRows18] at h
  by_cases hc : d.length % 18 = 0
  · rw [if_pos hc] at h
    cases h
    exact ⟨rfl, hc⟩
  · rw [if_neg hc] at h
    exact Except.noConfusion h

theorem stateDictPass_fold_none (pt : PTModel) (wm : List (Fqn × ReaderTensor)) (fqn : Fqn)
    (hwm : flookup wm fqn = none) :
    ∀ (L : List Fqn) (acc sd : List (Fqn × Tensor)), flookup acc fqn = none →
      L.foldlM (stateDictPassStep pt wm) acc = Except.ok sd →
      flookup sd fqn = none := by
  intro L
  induction L with
  | nil =>
    intro acc sd hacc h
    rw [List.foldlM_nil] at h
    cases h
    exact hacc
  | cons p rest ih =>
    intro acc sd hacc h
    rw [List.foldlM_cons] at h
    simp only [bind, Except.bind] at h
    cases hs : stateDictPassStep pt wm acc p <;> rw [hs] at h
    · exact Except.noConfusion h
    case ok acc₁ =>
    refine ih acc₁ sd ?_ h
    simp only [stateDictPassStep] at hs
    cases hw : flookup wm p <;> simp only [hw] at hs
    · cases hs
      exact hacc
    case some t =>
    have hne : p ≠ fqn := by
      intro he
      rw [he, hwm] at hw
      exact Option.noConfusion hw
    by_cases ht : t.tensor_type = QuantType.F32 ∨ t.tensor_type = QuantType.F16
    · rw [if_pos ht] at hs
      simp only [bind, Except.bind] at hs
      cases hm : mkReshaped t.data t.shape.reverse <;> rw [hm] at hs
      · exact Except.noConfusion hs
      · cases hs
        simp only [flookup_append_singleton, hacc]
        rw [if_neg hne]
    · rw [if_neg ht] at hs
      by_cases hq : t.tensor_type = QuantType.Q4_0 ∧ t.name = "token_embd.weight"
      · rw [if_pos hq] at hs
        simp only [bind, Except.bind] at hs
        cases hr : reshapeRows18 t.data <;> simp only [hr] at hs
        · exact Except.noConfusion hs
        · rename_i packed
          cases hm : mkReshaped (to_float packed).data
              [pt.params.vocab_size, pt.params.dim] <;> simp only [hm] at hs
          · exact Except.noConfusion hs
          · cases hs
            simp only [flookup_append_singleton, hacc]
            rw [if_neg hne]
      · rw [if_neg hq] at hs
        cases hs
        exact hacc

theorem flookup_append_singleton_ne {κ β : Type} [DecidableEq κ] (l : List (κ × β))
    (k a : κ) (v : β) (h : a ≠ k) : flookup (l ++ [(a, v)]) k = flookup l k := by
  rw [flookup_append_singleton]
  cases hl : flookup l k <;> simp [hl, h]

theorem stateDictPassStep_ok_cases (pt : PTModel) (wm : List (Fqn × ReaderTensor))
    (acc : List (Fqn × Tensor)) (p : Fqn) (acc₁ : List (Fqn × Tensor))
    (hs : stateDictPassStep pt wm acc p = Except.ok acc₁) :
    acc₁ = acc ∨ ∃ x, acc₁ = acc ++ [(p, x)] := by
  simp only [stateDictPassStep] at hs
  cases hw : flookup wm p <;> simp only [hw] at hs
  · cases hs
    exact Or.inl rfl
  case some t =>
  by_cases ht : t.tensor_type = QuantType.F32 ∨ t.tensor_type = QuantType.F16
  · rw [if_pos ht] at hs
    simp only [bind, Except.bind] at hs
    cases hm : mkReshaped t.data t.shape.reverse <;> simp only [hm] at hs
    · exact Except.noConfusion hs
    · cases hs
      exact Or.inr ⟨_, rfl⟩
  · rw [if_neg ht] at hs
    by_cases hq : t.tensor_type = QuantType.Q4_0 ∧ t.name = "token_embd.weight"
    · rw [if_pos hq] at hs
      simp only [bind, Except.bind] at hs
      cases hr : reshapeRows18 t.data <;> simp only [hr] at hs
      · exact Except.noConfusion hs
      · rename_i packed
        cases hm : mkReshaped (to_float packed).data
            [pt.params.vocab_size, pt.params.dim] <;> simp only [hm] at hs
        · exact Except.noConfusion hs
        · cases hs
          exact Or.inr ⟨_, rfl⟩
    · rw [if_neg hq] at hs
      cases hs
      exact Or.inl rfl

theorem stateDictPassStep_lookup_ne (pt : PTModel) (wm : List (Fqn × ReaderTensor))
    (acc : List (Fqn × Tensor)) (p : Fqn) (acc₁ : List (Fqn × Tensor)) (fqn : Fqn)
    (hs : stateDictPassStep pt wm acc p = Except.ok acc₁) (hne : p ≠ fqn) :
    flookup acc₁ fqn = flookup acc fqn := by
  rcases stateDictPassStep_ok_cases pt wm acc p acc₁ hs with hid | ⟨x, happ⟩
  · rw [hid]
  · rw [happ, flookup_append_singleton_ne _ _ _ _ hne]

theorem stateDictPass_fold_found (pt : PTModel) (wm : List (Fqn × ReaderTensor))
    (fqn : Fqn) (t : ReaderTensor) (hwm : flookup wm fqn = some t)
    (ht : t.tensor_type = QuantType.F32 ∨ t.tensor_type = QuantType.F16) :
    ∀ (L : List Fqn) (acc sd : List (Fqn × Tensor)),
      ((fqn ∈ L ∧ flookup acc fqn = none)
        ∨ flookup acc fqn = some ⟨t.shape.reverse, t.data⟩) →
      L.foldlM (stateDictPassStep pt wm) acc = Except.ok sd →
      flookup sd fqn = some ⟨t.shape.reverse, t.data⟩ := by
  intro L
  induction L with
  | nil =>
    intro acc sd hinv h
    rw [List.foldlM_nil] at h
    cases h
    rcases hinv with ⟨hmem, _⟩ | hsome
    · exact absurd hmem (List.not_mem_nil fqn)
    · exact hsome
  | cons p rest ih =>
    intro acc sd hinv h
    rw [List.foldlM_cons] at h
    simp only [bind, Except.bind] at h
    cases hs : stateDictPassStep pt wm acc p <;> rw [hs] at h
    · exact Except.noConfusion h
    case ok acc₁ =>
    refine ih acc₁ sd ?_ h
    by_cases hpq : p = fqn
    · subst hpq
      have hstep : ∃ x, acc₁ = acc ++ [(p, x)] ∧ x = (⟨t.shape.reverse, t.data⟩ : Tensor) := by
        simp only [stateDictPassStep, hwm] at hs
        rw [if_pos ht] at hs
        simp only [bind, Except.bind] at hs
        cases hm : mkReshaped t.data t.shape.reverse <;> simp only [hm] at hs
        · exact Except.noConfusion hs
        · rename_i tt
          obtain ⟨htt, _⟩ := mkReshaped_ok _ _ _ hm
          cases hs
          exact ⟨tt, rfl, htt⟩
      obtain ⟨x, happ, hx⟩ := hstep
      subst hx
      rcases hinv with ⟨_, hacc⟩ | hsome
      · refine Or.inr ?_
        rw [happ]
        simp [flookup_append_singleton, hacc]
      · refine Or.inr ?_
        rw [happ]
        simp only [flookup_append_singleton, hsome]
    · have hpres := stateDictPassStep_lookup_ne pt wm acc p acc₁ fqn hs hpq
      rcases hinv with ⟨hmem, hacc⟩ | hsome
      · have hmem' : fqn ∈ rest := by
          rcases List.mem_cons.mp hmem with he | hm2
          · exact absurd he.symm hpq
          · exact hm2
        exact Or.inl ⟨hmem', by rw [hpres]; exact hacc⟩
      · exact Or.inr (by rw [hpres]; exact hsome)

theorem stateDictPass_fold_found_q4 (pt : PTModel) (wm : List (Fqn × ReaderTensor))
    (fqn : Fqn) (t : ReaderTensor) (hwm : flookup wm fqn = some t)
    (ht : t.tensor_type = QuantType.Q4_0) (hname : t.name = "token_embd.weight") :
    ∀ (L : List Fqn) (acc sd : List (Fqn × Tensor)),
      ((fqn ∈ L ∧ flookup acc fqn = none)
        ∨ (flookup acc fqn
              = some ⟨[pt.params.vocab_size, pt.params.dim], dequantRows t.data⟩
            ∧ t.data.length % 18 = 0
            ∧ 32 * (t.data.length / 18) = pt.params.vocab_size * pt.params.dim)) →
      L.foldlM (stateDictPassStep pt wm) acc = Except.ok sd →
      flookup sd fqn = some ⟨[pt.params.vocab_size, pt.params.dim], dequantRows t.data⟩
        ∧ t.data.length % 18 = 0
        ∧ 32 * (t.data.length / 18) = pt.params.vocab_size * pt.params.dim := by
  have hft : ¬ (t.tensor_type = QuantType.F32 ∨ t.tensor_type = QuantType.F16) := by
    rw [ht]
    rintro (hc | hc) <;> exact QuantType.noConfusion hc
  intro L
  induction L with
  | nil =>
    intro acc sd hinv h
    rw [List.foldlM_nil] at h
    cases h
    rcases hinv with ⟨hmem, _⟩ | hsome
    · exact absurd hmem (List.not_mem_nil fqn)
    · exact hsome
  | cons p rest ih =>
    intro acc sd hinv h
    rw [List.foldlM_cons] at h
    simp only [bind, Except.bind] at h
    cases hs : stateDictPassStep pt wm acc p <;> rw [hs] at h
    · exact Except.noConfusion h
    case ok acc₁ =>
    refine ih acc₁ sd ?_ h
    by_cases hpq : p = fqn
    · subst hpq
      have hstep : acc₁ = acc
            ++ [(p, (⟨[pt.params.vocab_size, pt.params.dim], dequantRows t.data⟩ : Tensor))]
          ∧ t.data.length % 18 = 0
          ∧ 32 * (t.data.length / 18) = pt.params.vocab_size * pt.params.dim := by
        simp only [stateDictPassStep, hwm] at hs
        rw [if_neg hft, if_pos ⟨ht, hname⟩] at hs
        simp only [bind, Except.bind] at hs
        cases hr : reshapeRows18 t.data <;> simp only [hr] at hs
        · exact Except.noConfusion hs
        · rename_i packed
          obtain ⟨hpacked, hdvd⟩ := reshapeRows18_ok _ _ hr
          cases hm : mkReshaped (to_float packed).data
              [pt.params.vocab_size, pt.params.dim] <;> simp only [hm] at hs
          · exact Except.noConfusion hs
          · rename_i tt
            obtain ⟨htt, hprod⟩ := mkReshaped_ok _ _ _ hm
            cases hs
            subst hpacked
            have hdata : (to_float ⟨[t.data.length / 18, 18], t.data⟩).data
                = dequantRows t.data := rfl
            have hlen : (to_float ⟨[t.data.length / 18, 18], t.data⟩).data.length
                = 32 * (t.data.length / 18) := by
              rw [hdata]
              exact dequantRows_length t.data (Nat.dvd_of_mod_eq_zero hdvd)
            constructor
            · rw [htt, hdata]
            constructor
            · exact hdvd
            · rw [← hlen, ← hprod]
              simp [List.prod]
      obtain ⟨happ, hdvd, heq⟩ := hstep
      rcases hinv with ⟨_, hacc⟩ | ⟨hsome, _, _⟩
      · refine Or.inr ⟨?_, hdvd, heq⟩
        rw [happ]
        simp [flookup_append_singleton, hacc]
      · refine Or.inr ⟨?_, hdvd, heq⟩
        rw [happ]
        simp only [flookup_append_singleton, hsome]
    · have hpres := stateDictPassStep_lookup_ne pt wm acc p acc₁ fqn hs hpq
      rcases hinv with ⟨hmem, hacc⟩ | ⟨hsome, hdvd, heq⟩
      · have hmem' : fqn ∈ rest := by
          rcases List.mem_cons.mp hmem with he | hm2
          · exact absurd he.symm hpq
          · exact hm2
        exact Or.inl ⟨hmem', by rw [hpres]; exact hacc⟩
      · exact Or.inr ⟨by rw [hpres]; exact hsome, hdvd, heq⟩

theorem stateDictPass_fold_fail (pt : PTModel) (wm : List (Fqn × ReaderTensor))
    (fqn : Fqn) (t : ReaderTensor) (hwm : flookup wm fqn = some t)
    (ht : t.tensor_type = QuantType.Q4_0) (hname : t.name = "token_embd.weight")
    (hd : t.data.length % 18 = 0)
    (hsz : ¬ 32 * (t.data.length / 18) = pt.params.vocab_size * pt.params.dim)
    (hrest : ∀ fq, fq ≠ fqn → flookup wm fq = none) :
    ∀ (L : List Fqn) (acc : List (Fqn × Tensor)), fqn ∈ L →
      L.foldlM (stateDictPassStep pt wm) acc = Except.error Err.shapeError := by
  have hft : ¬ (t.tensor_type = QuantType.F32 ∨ t.tensor_type = QuantType.F16) := by
    rw [ht]
    rintro (hc | hc) <;> exact QuantType.noConfusion hc
  intro L
  induction L with
  | nil =>
    intro acc hmem
    exact absurd hmem (List.not_mem_nil fqn)
  | cons p rest ih =>
    intro acc hmem
    rw [List.foldlM_cons]
    by_cases hpq : p = fqn
    · subst hpq
      have h1 : reshapeRows18 t.data
          = Except.ok ⟨[t.data.length / 18, 18], t.data⟩ := by
        simp [reshapeRows18, hd]
      have h2 : mkReshaped (to_float ⟨[t.data.length / 18, 18], t.data⟩).data
          [pt.params.vocab_size, pt.params.dim] = Except.error Err.shapeError := by
        simp only [mkReshaped, to_float]
        rw [if_neg]
        intro hc
        apply hsz
        rw [← dequantRows_length t.data (Nat.dvd_of_mod_eq_zero hd)]
        rw [← hc]
        simp [List.prod]
      have hstep : stateDictPassStep pt wm acc p = Except.error Err.shapeError := by
        simp only [stateDictPassStep, hwm]
        rw [if_neg hft, if_pos ⟨ht, hname⟩]
        simp only [bind, Except.bind, h1, h2]
      rw [hstep]
      rfl
    · have hw : flookup wm p = none := hrest p hpq
      have hstep : stateDictPassStep pt wm acc p = Except.ok acc := by
        simp [stateDictPassStep, hw]
      rw [hstep]
      have hmem' : fqn ∈ rest := by
        rcases List.mem_cons.mp hmem with he | hm2
        · exact absurd he.symm hpq
        · exact hm2
      simpa [bind, Except.bind] using ih acc hmem'

theorem loadParams_none (ps : List (String × PValue)) (f : Fqn → Option Tensor)
    (hf : ∀ fq, f fq = none) : loadParams ps f = Except.ok ps := by
  induction ps with
  | nil => rfl
  | cons p rest ih =>
    obtain ⟨n, v⟩ := p
    simp [loadParams, hf [n], bind, Except.bind, pure, Except.pure, ih]

mutual

theorem Module.loadSD_none (m : Module) (f : Fqn → Option Tensor)
    (hf : ∀ fq, f fq = none) : m.loadSD f = Except.ok m := by
  cases m with
  | mk k ps cs =>
    simp only [Module.loadSD, bind, Except.bind, loadParams_none ps f hf,
      Children.loadSD_none_spine cs f hf]

theorem Children.loadSD_none_spine (cs : Children) (f : Fqn → Option Tensor)
    (hf : ∀ fq, f fq = none) : Children.loadSD cs f = Except.ok cs := by
  cases cs with
  | nil => rfl
  | cons n c rest =>
    simp only [Children.loadSD, bind, Except.bind,
      Module.loadSD_none c (fun fq => f (n :: fq)) (fun fq => hf (n :: fq)),
      Children.loadSD_none_spine rest f hf]

end

theorem foldlM_except_congr {σ α : Type} (f g : σ → α → Except Err σ) :
    ∀ (L : List α), (∀ b a, a ∈ L → f b a = g b a) →
      ∀ b, L.foldlM f b = L.foldlM g b := by
  intro L
  induction L with
  | nil => intro _ b; rfl
  | cons a rest ih =>
    intro hfg b
    rw [List.foldlM_cons, List.foldlM_cons, hfg b a (List.mem_cons_self a rest)]
    cases hg : g b a <;> simp only [bind, Except.bind]
    exact ih (fun b' a' ha' => hfg b' a' (List.mem_cons_of_mem a ha')) _

theorem foldlM_except_skip_id {σ α : Type} (f : σ → α → Except Err σ) :
    ∀ (L : List α), (∀ b a, a ∈ L → f b a = Except.ok b) →
      ∀ b, L.foldlM f b = Except.ok b := by
  intro L
  induction L with
  | nil => intro _ b; rfl
  | cons a rest ih =>
    intro hskip b
    rw [List.foldlM_cons, hskip b a (List.mem_cons_self a rest)]
    simp only [bind, Except.bind]
    exact ih (fun b' a' ha' => hskip b' a' (List.mem_cons_of_mem a ha')) b

theorem load_weights_decomp (pt : PTModel) (wm : List (Fqn × ReaderTensor)) (pt' : PTModel)
    (h : load_weights pt wm = Except.ok pt') :
    ∃ (sd : List (Fqn × Tensor)) (root1 root2 : Module),
      stateDictPass pt wm = Except.ok sd ∧
      pt.root.loadSD (fun fq => flookup sd fq) = Except.ok root1 ∧
      paramPass wm root1 = Except.ok root2 ∧
      pt' = ⟨pt.params, root2⟩ := by
  simp only [load_weights, bind, Except.bind] at h
  cases h1 : stateDictPass pt wm <;> simp only [h1] at h
  · exact Except.noConfusion h
  case ok sd =>
  cases h2 : pt.root.loadSD (fun fq => flookup sd fq) <;> simp only [h2] at h
  · exact Except.noConfusion h
  case ok root1 =>
  cases h3 : paramPass wm root1 <;> simp only [h3] at h
  · exact Except.noConfusion h
  case ok root2 =>
  cases h
  exact ⟨sd, root1, root2, rfl, h2, h3, rfl⟩

theorem load_weights_pass1_plain (pt : PTModel) (wm : List (Fqn × ReaderTensor))
    (fqn : Fqn) (t : ReaderTensor) (v0 : PValue) (pt' : PTModel)
    (hwm : flookup wm fqn = some t)
    (ht : t.tensor_type = QuantType.F32 ∨ t.tensor_type = QuantType.F16)
    (hv : pt.root.getSlot fqn = some v0)
    (h : load_weights pt wm = Except.ok pt') :
    pt'.root.getSlot fqn = some (PValue.dense ⟨t.shape.reverse, t.data⟩) := by
  obtain ⟨sd, root1, root2, h1, h2, h3, h4⟩ := load_weights_decomp pt wm pt' h
  have hmem : fqn ∈ (pt.root.state_dict).map (fun p => p.1) :=
    Module.getSlot_mem pt.root fqn v0 hv
  rw [stateDictPass] at h1
  have hsd : flookup sd fqn = some ⟨t.shape.reverse, t.data⟩ :=
    stateDictPass_fold_found pt wm fqn t hwm ht
      ((pt.root.state_dict).map (fun p => p.1)) [] sd (Or.inl ⟨hmem, rfl⟩) h1
  have hroot1 : root1.getSlot fqn = some (PValue.dense ⟨t.shape.reverse, t.data⟩) := by
    have hchar := Module.loadSD_ok_getSlot pt.root root1 _ h2 fqn
    simp only [hv, hsd] at hchar
    exact hchar
  have hnotq4 : ¬ t.tensor_type = QuantType.Q4_0 := by
    rcases ht with hh | hh <;> rw [hh] <;> exact fun hc => QuantType.noConfusion hc
  have hskip : ∀ r : Module, paramPassStep wm r fqn = Except.ok r :=
    fun r => paramPassStep_skip_type wm r fqn t hwm hnotq4
  rw [paramPass] at h3
  have hfinal := foldl_paramPass_preserve wm fqn hskip
    ((root1.state_dict).map (fun p => p.1)) root1 root2 h3
  rw [h4]
  show root2.getSlot fqn = _
  rw [hfinal, hroot1]

/-! ## Claim C4 — pass 1 assigns plain float tensors reversed -/

/-- C4: for every tensor in the name map whose encoding is plain
float32 or float16, pass 1 of the weight loader assigns to the matching
model slot the tensor's raw data reshaped to the reverse of its
declared GGUF dimension order (the second pass never touches a
non-Q4_0 entry, so this is also the slot's final value); in
particular a float32 tensor named `token_embd.weight` with declared
shape `(4096, 32000)` lands in the embedding parameter reshaped to
`(32000, 4096)`. -/
theorem claim_C4_pass1_plain_floats :
    (∀ (pt : PTModel) (wm : List (Fqn × ReaderTensor)) (fqn : Fqn) (t : ReaderTensor)
        (v0 : PValue) (pt' : PTModel),
      flookup wm fqn = some t →
      (t.tensor_type = QuantType.F32 ∨ t.tensor_type = QuantType.F16) →
      pt.root.getSlot fqn = some v0 →
      load_weights pt wm = Except.ok pt' →
      pt'.root.getSlot fqn = some (PValue.dense ⟨t.shape.reverse, t.data⟩)) ∧
    (∀ (pt : PTModel) (t : ReaderTensor) (v0 : PValue) (pt' : PTModel),
      t.name = "token_embd.weight" →
      t.tensor_type = QuantType.F32 →
      t.shape = [4096, 32000] →
      pt.root.getSlot ["tok_embeddings", "weight"] = some v0 →
      load_weights pt (buildWeightMap [t]) = Except.ok pt' →
      pt'.root.getSlot ["tok_embeddings", "weight"]
        = some (PValue.dense ⟨[32000, 4096], t.data⟩)) := by
  refine ⟨load_weights_pass1_plain, ?_⟩
  intro pt t v0 pt' hname htype hshape hv h
  have hkey : splitOnDot (convert_gguf_tensor_name_to_llama_nn t.name)
      = ["tok_embeddings", "weight"] := by
    rw [hname]
    rfl
  have hwm : flookup (buildWeightMap [t]) ["tok_embeddings", "weight"] = some t := by
    simp [buildWeightMap, hkey, fset, flookup]
  have := load_weights_pass1_plain pt (buildWeightMap [t]) ["tok_embeddings", "weight"]
    t v0 pt' hwm (Or.inl htype) hv h
  rw [hshape] at this
  exact this

/-- Witness for C4: loading the small model from a single float32
`output.weight` tensor of declared shape `(2, 16)` stores the data
reshaped to `(16, 2)` in the output head's slot. -/
theorem claim_C4_pass1_plain_floats_witness :
    ∃ pt', load_weights smallPT (buildWeightMap [outTensor]) = Except.ok pt' ∧
      pt'.root.getSlot ["output", "weight"]
        = some (PValue.dense ⟨[16, 2], List.replicate 32 (Elem.f32 3)⟩) := by
  have hok : ∃ pt', load_weights smallPT (buildWeightMap [outTensor]) = Except.ok pt' := by
    cases hl : load_weights smallPT (buildWeightMap [outTensor])
    case ok p => exact ⟨p, rfl⟩
    case error e =>
      have hbool : (load_weights smallPT (buildWeightMap [outTensor])).toOption.isSome
          = true := by decide
      rw [hl] at hbool
      exact Bool.noConfusion hbool
  obtain ⟨pt', hpt'⟩ := hok
  refine ⟨pt', hpt', ?_⟩
  exact claim_C4_pass1_plain_floats.1 smallPT (buildWeightMap [outTensor])
    ["output", "weight"] outTensor (initParam [16, 2]) pt' rfl (Or.inl rfl) rfl hpt'

/-! ## Claim C5 — the quantized token-embedding special case -/

/-- C5 (amended): for a 4-bit block-quantized tensor named exactly
`token_embd.weight` whose raw bytes form `N` rows of 18 bytes, pass 1
dequantizes it to exactly `32 * N` elements and reshapes them to
`(vocab_size, dim)`, assigning the result to the matching slot (the
parent of which is the embedding module, so pass 2 leaves it alone);
when the loader succeeds, `32 * N` necessarily equals
`vocab_size * dim`, and when `32 * N` differs from `vocab_size * dim`
the reshape fails with the shape-mismatch error (`Err.shapeError`,
torch's `RuntimeError`) — not with the `InvalidInput` assertion error,
contrary to the original claim. -/
theorem claim_C5_embedding_dequant :
    (∀ (pt : PTModel) (wm : List (Fqn × ReaderTensor)) (fqn : Fqn) (t : ReaderTensor)
        (v0 : PValue) (par : Module) (pt' : PTModel),
      flookup wm fqn = some t →
      t.tensor_type = QuantType.Q4_0 →
      t.name = "token_embd.weight" →
      t.data.length % 18 = 0 →
      pt.root.getSlot fqn = some v0 →
      pt.root.getAttr fqn.dropLast = some (Attr.mod par) →
      ¬ par.kind = ModuleKind.linear →
      load_weights pt wm = Except.ok pt' →
      (dequantRows t.data).length = 32 * (t.data.length / 18) ∧
      32 * (t.data.length / 18) = pt.params.vocab_size * pt.params.dim ∧
      pt'.root.getSlot fqn = some (PValue.dense
        ⟨[pt.params.vocab_size, pt.params.dim], dequantRows t.data⟩)) ∧
    (∀ (pt : PTModel) (t : ReaderTensor) (v0 : PValue),
      t.name = "token_embd.weight" →
      t.tensor_type = QuantType.Q4_0 →
      t.data.length % 18 = 0 →
      ¬ 32 * (t.data.length / 18) = pt.params.vocab_size * pt.params.dim →
      pt.root.getSlot ["tok_embeddings", "weight"] = some v0 →
      load_weights pt (buildWeightMap [t]) = Except.error Err.shapeError) := by
  constructor
  · intro pt wm fqn t v0 par pt' hwm ht hname hd hv hpar hpk h
    obtain ⟨sd, root1, root2, h1, h2, h3, h4⟩ := load_weights_decomp pt wm pt' h
    have hmem : fqn ∈ (pt.root.state_dict).map (fun p => p.1) :=
      Module.getSlot_mem pt.root fqn v0 hv
    rw [stateDictPass] at h1
    obtain ⟨hsd, _, hsz⟩ := stateDictPass_fold_found_q4 pt wm fqn t hwm ht hname
      ((pt.root.state_dict).map (fun p => p.1)) [] sd (Or.inl ⟨hmem, rfl⟩) h1
    have hroot1 : root1.getSlot fqn = some (PValue.dense
        ⟨[pt.params.vocab_size, pt.params.dim], dequantRows t.data⟩) := by
      have hchar := Module.loadSD_ok_getSlot pt.root root1 _ h2 fqn
      simp only [hv, hsd] at hchar
      exact hchar
    obtain ⟨par1, hpar1, hk1⟩ :=
      Module.loadSD_ok_getAttr_mod pt.root root1 _ fqn.dropLast par h2 hpar
    rw [paramPass] at h3
    have hfinal := foldl_paramPass_preserve_parent wm fqn
      ((root1.state_dict).map (fun p => p.1)) root1 root2 par1 hpar1
      (by rw [hk1]; exact hpk) h3
    refine ⟨dequantRows_length t.data (Nat.dvd_of_mod_eq_zero hd), hsz, ?_⟩
    rw [h4]
    show root2.getSlot fqn = _
    rw [hfinal, hroot1]
  · intro pt t v0 hname ht hd hsz hv
    have hkey : splitOnDot (convert_gguf_tensor_name_to_llama_nn t.name)
        = ["tok_embeddings", "weight"] := by
      rw [hname]
      rfl
    have hwm_eq : buildWeightMap [t] = [(["tok_embeddings", "weight"], t)] := by
      simp [buildWeightMap, hkey, fset]
    have hwm : flookup (buildWeightMap [t]) ["tok_embeddings", "weight"] = some t := by
      rw [hwm_eq]
      simp [flookup]
    have hrest : ∀ fq, fq ≠ (["tok_embeddings", "weight"] : Fqn) →
        flookup (buildWeightMap [t]) fq = none := by
      intro fq hne
      rw [hwm_eq]
      simp only [flookup]
      rw [if_neg (fun hh => hne hh.symm)]
    have hmem : (["tok_embeddings", "weight"] : Fqn)
        ∈ (pt.root.state_dict).map (fun p => p.1) :=
      Module.getSlot_mem pt.root _ v0 hv
    have hfail := stateDictPass_fold_fail pt (buildWeightMap [t])
      ["tok_embeddings", "weight"] t hwm ht hname hd hsz hrest
      ((pt.root.state_dict).map (fun p => p.1)) [] hmem
    simp only [load_weights, bind, Except.bind, stateDictPass, hfail]

/-- Counterexample for C5 as stated: a concrete one-block quantized
embedding tensor (one 18-byte row, 32 dequantized elements) fed to the
tiny model whose embedding table has `4 * 2 = 8` elements makes the
reshape fail — with the shape-mismatch error, which is a different
failure kind than the InvalidInput assertion the claim names. -/
theorem claim_C5_invalidinput_counterexample :
    load_weights tinyPT (buildWeightMap [embTensor]) = Except.error Err.shapeError ∧
    Err.shapeError ≠ Err.invalidInput :=
  ⟨rfl, by decide⟩

/-- Witness for C5 (amended): the small model (vocab 16, dim 2) with a
single-row quantized embedding tensor loads, producing the dense
dequantized embedding; and the failure branch is exercised by the
counterexample input. -/
theorem claim_C5_embedding_dequant_witness :
    (∃ pt', load_weights smallPT (buildWeightMap [embTensor]) = Except.ok pt' ∧
      pt'.root.getSlot ["tok_embeddings", "weight"]
        = some (PValue.dense ⟨[16, 2], dequantRows embTensor.data⟩) ∧
      (dequantRows embTensor.data).length = 32) ∧
    load_weights tinyPT (buildWeightMap [embTensor]) = Except.error Err.shapeError := by
  constructor
  · have hok : ∃ pt', load_weights smallPT (buildWeightMap [embTensor]) = Except.ok pt' := by
      cases hl : load_weights smallPT (buildWeightMap [embTensor])
      case ok p => exact ⟨p, rfl⟩
      case error e =>
        have hbool : (load_weights smallPT (buildWeightMap [embTensor])).toOption.isSome
            = true := by decide
        rw [hl] at hbool
        exact Bool.noConfusion hbool
    obtain ⟨pt', hpt'⟩ := hok
    refine ⟨pt', hpt', ?_, ?_⟩
    · exact (claim_C5_embedding_dequant.1 smallPT (buildWeightMap [embTensor])
        ["tok_embeddings", "weight"] embTensor (initParam [16, 2])
        (Module.mk ModuleKind.embedding [("weight", initParam [16, 2])] Children.nil)
        pt' rfl rfl rfl (by decide) rfl rfl (by decide) hpt').2.2
    · exact (claim_C5_embedding_dequant.1 smallPT (buildWeightMap [embTensor])
        ["tok_embeddings", "weight"] embTensor (initParam [16, 2])
        (Module.mk ModuleKind.embedding [("weight", initParam [16, 2])] Children.nil)
        pt' rfl rfl rfl (by decide) rfl rfl (by decide) hpt').1
  · exact claim_C5_embedding_dequant.2 tinyPT embTensor (initParam [4, 2])
      rfl rfl (by decide) (by decide) rfl

/-! ## Claim C7 — unmatched tensors and parameters are silently skipped -/

/-- C7: the weight loader reads the name map only at the model's own
parameter paths, so tensors whose translated names match no parameter
are irrelevant to the result (first conjunct); a model parameter with
no name-map entry retains the value it held at instantiation time —
both passes leave it unchanged (second conjunct); and with nothing
matched at all the loader completes without any error, returning the
model as instantiated (third conjunct). -/
theorem claim_C7_unmatched_silent :
    (∀ (pt : PTModel) (wm wm' : List (Fqn × ReaderTensor)),
      (∀ fq, fq ∈ (pt.root.state_dict).map (fun p => p.1) →
        flookup wm fq = flookup wm' fq) →
      load_weights pt wm = load_weights pt wm') ∧
    (∀ (pt : PTModel) (wm : List (Fqn × ReaderTensor)) (fqn : Fqn) (pt' : PTModel),
      flookup wm fqn = none →
      load_weights pt wm = Except.ok pt' →
      pt'.root.getSlot fqn = pt.root.getSlot fqn) ∧
    (∀ pt : PTModel, load_weights pt [] = Except.ok pt) := by
  refine ⟨?_, ?_, ?_⟩
  · intro pt wm wm' hag
    simp only [load_weights]
    have hsd_eq : stateDictPass pt wm = stateDictPass pt wm' := by
      simp only [stateDictPass]
      refine foldlM_except_congr _ _ _ ?_ []
      intro acc fq hfq
      simp only [stateDictPassStep, hag fq hfq]
    rw [hsd_eq]
    cases hsd : stateDictPass pt wm' <;> simp only [bind, Except.bind]
    case ok sd =>
    cases hld : pt.root.loadSD (fun fq => flookup sd fq) <;> simp only [hld]
    case ok root1 =>
    have hkeys : (root1.state_dict).map (fun p => p.1)
        = (pt.root.state_dict).map (fun p => p.1) :=
      Module.loadSD_ok_keys pt.root root1 _ hld
    have hpp : paramPass wm root1 = paramPass wm' root1 := by
      simp only [paramPass]
      refine foldlM_except_congr _ _ _ ?_ root1
      intro r fq hfq
      have hmem : fq ∈ (pt.root.state_dict).map (fun p => p.1) := by
        rw [← hkeys]
        exact hfq
      simp only [paramPassStep, hag fq hmem]
    rw [hpp]
  · intro pt wm fqn pt' hwm h
    obtain ⟨sd, root1, root2, h1, h2, h3, h4⟩ := load_weights_decomp pt wm pt' h
    rw [stateDictPass] at h1
    have hsd := stateDictPass_fold_none pt wm fqn hwm
      ((pt.root.state_dict).map (fun p => p.1)) [] sd rfl h1
    have hchar := Module.loadSD_ok_getSlot pt.root root1 _ h2 fqn
    rw [hsd] at hchar
    have hskip : ∀ r : Module, paramPassStep wm r fqn = Except.ok r :=
      fun r => paramPassStep_skip_none wm r fqn hwm
    rw [paramPass] at h3
    have hfinal := foldl_paramPass_preserve wm fqn hskip
      ((root1.state_dict).map (fun p => p.1)) root1 root2 h3
    rw [h4]
    show root2.getSlot fqn = _
    rw [hfinal]
    cases hslot : pt.root.getSlot fqn <;> simp only [hslot] at hchar <;> rw [hchar]
  · intro pt
    have h1 : stateDictPass pt [] = Except.ok [] := by
      simp only [stateDictPass]
      refine foldlM_except_skip_id _ _ ?_ []
      intro acc fq _
      simp [stateDictPassStep, flookup]
    have h2 : pt.root.loadSD (fun fq => flookup ([] : List (Fqn × Tensor)) fq)
        = Except.ok pt.root :=
      Module.loadSD_none pt.root _ (fun _ => rfl)
    have h3 : paramPass ([] : List (Fqn × ReaderTensor)) pt.root = Except.ok pt.root := by
      simp only [paramPass]
      refine foldlM_except_skip_id _ _ ?_ pt.root
      intro r fq _
      exact paramPassStep_skip_none [] r fq rfl
    simp only [load_weights, bind, Except.bind, h1, h2, h3]

/-- Witness for C7: in the small model loaded from the single
quantized attention tensor, the unmatched `norm.weight` parameter
keeps its instantiation value, and loading from an empty map returns
the model unchanged. -/
theorem claim_C7_unmatched_silent_witness :
    (∃ pt', load_weights smallPT (buildWeightMap [wqTensor]) = Except.ok pt' ∧
      pt'.root.getSlot ["norm", "weight"] = smallPT.root.getSlot ["norm", "weight"]) ∧
    load_weights smallPT [] = Except.ok smallPT := by
  constructor
  · have hok : ∃ pt', load_weights smallPT (buildWeightMap [wqTensor]) = Except.ok pt' := by
      cases hl : load_weights smallPT (buildWeightMap [wqTensor])
      case ok p => exact ⟨p, rfl⟩
      case error e =>
        have hbool : (load_weights smallPT (buildWeightMap [wqTensor])).toOption.isSome
            = true := by decide
        rw [hl] at hbool
        exact Bool.noConfusion hbool
    obtain ⟨pt', hpt'⟩ := hok
    exact ⟨pt', hpt',
      claim_C7_unmatched_silent.2.1 smallPT (buildWeightMap [wqTensor])
        ["norm", "weight"] pt' rfl hpt'⟩
  · exact claim_C7_unmatched_silent.2.2 smallPT

/-! ## Claim C3 — pass 2 substitutes quantized linear weights -/

/-- C3: for every 4-bit block-quantized tensor in the name map whose
translated path names the `weight` of a module whose parent is a plain
linear layer, pass 2 of the weight loader replaces that weight in
place with the Quantized Weight Wrapper: its declared logical shape is
the original dense weight's shape, and its half-precision scale tensor
has exactly one entry per 18-byte row of the source bytes; parameters
whose parent is not a linear layer, or whose leaf name is not
`weight`, are left untouched by pass 2. -/
theorem claim_C3_pass2_quantized_linear :
    ∀ (wm : List (Fqn × ReaderTensor)) (root root' : Module),
      paramPass wm root = Except.ok root' →
      ((root.state_dict).map (fun p => p.1)).Nodup →
      (∀ (fqn : Fqn) (t : ReaderTensor) (par : Module) (w0 : Tensor),
        flookup wm fqn = some t →
        t.tensor_type = QuantType.Q4_0 →
        t.data.length % 18 = 0 →
        root.getAttr fqn.dropLast = some (Attr.mod par) →
        par.kind = ModuleKind.linear →
        fqn.getLastD "" = "weight" →
        flookup par.params "weight" = some (PValue.dense w0) →
        root'.getSlot fqn
          = some (PValue.qweight ⟨[t.data.length / 18, 18], t.data⟩
              (unpackScale ⟨[t.data.length / 18, 18], t.data⟩) w0.shape) ∧
        (unpackScale ⟨[t.data.length / 18, 18], t.data⟩).data.length
          = t.data.length / 18) ∧
      (∀ q : Fqn,
        (q.getLastD "" ≠ "weight"
          ∨ (∃ p, root.getAttr q.dropLast = some (Attr.mod p)
              ∧ ¬ p.kind = ModuleKind.linear)
          ∨ root.getAttr q.dropLast = none
          ∨ (∃ w, root.getAttr q.dropLast = some (Attr.val w))) →
        root'.getSlot q = root.getSlot q) := by
  intro wm root root' hrun hnd
  rw [paramPass] at hrun
  constructor
  · intro fqn t par w0 hwm ht hd hpar hk hl hw
    have hfqdec : fqn = fqn.dropLast ++ ["weight"] := by
      have hne : fqn ≠ [] := by
        intro hnil
        rw [hnil] at hl
        exact absurd hl (by decide)
      have := fqn_decomp fqn hne
      rw [hl] at this
      exact this
    have hslot : root.getSlot fqn = some (PValue.dense w0) := by
      conv_lhs => rw [hfqdec]
      rw [Module.getSlot_append root fqn.dropLast "weight" par hpar, hw]
    have hmem : fqn ∈ (root.state_dict).map (fun p => p.1) :=
      Module.getSlot_mem root fqn _ hslot
    refine ⟨?_, unpackScale_length _ _⟩
    exact foldl_paramPass_action wm fqn t (PValue.dense w0) hwm ht hd hl
      ((root.state_dict).map (fun p => p.1)) root root' par hmem hnd hpar hk hw hrun
  · intro q hq
    exact foldl_paramPass_untouched wm q
      ((root.state_dict).map (fun p => p.1)) root root' hq hrun

/-- Witness for C3: pass 2 over the small model with the single
quantized `blk.0.attn_q.weight` tensor wraps the `wq` weight (scale
tensor of length one, logical shape `[2, 2]`) and leaves the
non-linear-parented `norm.weight` untouched. -/
theorem claim_C3_pass2_quantized_linear_witness :
    ∃ root', paramPass (buildWeightMap [wqTensor]) (Transformer smallArgs)
        = Except.ok root' ∧
      root'.getSlot ["layers", "0", "attention", "wq", "weight"]
        = some (PValue.qweight ⟨[1, 18], wqTensor.data⟩
            (unpackScale ⟨[1, 18], wqTensor.data⟩) [2, 2]) ∧
      (unpackScale ⟨[1, 18], wqTensor.data⟩).data.length = 1 ∧
      root'.getSlot ["norm", "weight"]
        = (Transformer smallArgs).getSlot ["norm", "weight"] := by
  have hok : ∃ root', paramPass (buildWeightMap [wqTensor]) (Transformer smallArgs)
      = Except.ok root' := by
    cases hl : paramPass (buildWeightMap [wqTensor]) (Transformer smallArgs)
    case ok r => exact ⟨r, rfl⟩
    case error e =>
      have hbool : (paramPass (buildWeightMap [wqTensor])
          (Transformer smallArgs)).toOption.isSome = true := by decide
      rw [hl] at hbool
      exact Bool.noConfusion hbool
  obtain ⟨root', hrun⟩ := hok
  have hmain := claim_C3_pass2_quantized_linear (buildWeightMap [wqTensor])
    (Transformer smallArgs) root' hrun (by decide)
  refine ⟨root', hrun, ?_, ?_, ?_⟩
  · exact (hmain.1 ["layers", "0", "attention", "wq", "weight"] wqTensor
      (Module.mk ModuleKind.linear
        [("weight", PValue.dense ⟨[2, 2], List.replicate 4 Elem.undef⟩)] Children.nil)
      ⟨[2, 2], List.replicate 4 Elem.undef⟩
      rfl rfl (by decide) rfl rfl rfl rfl).1
  · exact (hmain.1 ["layers", "0", "attention", "wq", "weight"] wqTensor
      (Module.mk ModuleKind.linear
        [("weight", PValue.dense ⟨[2, 2], List.replicate 4 Elem.undef⟩)] Children.nil)
      ⟨[2, 2], List.replicate 4 Elem.undef⟩
      rfl rfl (by decide) rfl rfl rfl rfl).2
  · exact hmain.2 ["norm", "weight"]
      (Or.inr (Or.inl ⟨Module.mk ModuleKind.rmsnorm
        [("weight", PValue.dense ⟨[2], List.replicate 2 Elem.undef⟩)] Children.nil,
        rfl, by decide⟩))

end GGUFConvert
